import Mathlib

/-!
# Cache simulator (csim.c): shallow embedding and verification

The embedding follows `src/csim.c`.  Global variables of the C program
(`cache`, `queues`, `res`) become the fields of an explicit state `Sim`, the
geometry globals (`set_size`, `offset_size`, `ways`) become a `Geometry`
value, and `exit(EXIT_FAILURE)` becomes an `Except` error.

The bookkeeping of the simulator (`operation`, `run`) is written over the
content of the cache grid.  Which cells of the grid are memory obtained by
`allocateCache` is kept in `CacheMemory`; `operationChecked` and `runChecked`
are the same steps with every slot access checked against it, and they agree
with `operation` and `run` as long as no access leaves the allocated rows
(`runChecked_ok`, `runChecked_eq_run`).
-/

namespace Csim

/-! ## Machine arithmetic on `unsigned long` (64 bit) -/

/-- Value of the C constant `UINT64_MAX`, the tag of a line that was never filled. -/
def UINT64_MAX : Nat := 2 ^ 64 - 1

/-- The constant `mask = (1ul << 63)` of line 12. -/
def mask : Nat := 2 ^ 63

/-- Addition of two `unsigned long` values. -/
def add64 (a b : Nat) : Nat := (a + b) % 2 ^ 64

/-- Subtraction of two `unsigned long` values (wraps around below zero). -/
def sub64 (a b : Nat) : Nat := (a % 2 ^ 64 + 2 ^ 64 - b % 2 ^ 64) % 2 ^ 64

/-- Multiplication of two `unsigned long` values. -/
def mul64 (a b : Nat) : Nat := (a * b) % 2 ^ 64

/-- Left shift of an `unsigned long` value, keeping the low 64 bits. -/
def shl64 (a n : Nat) : Nat := (a <<< n) % 2 ^ 64

/-! ## Data model -/

/-- The three geometry globals `set_size` (s), `offset_size` (b) and `ways` (E). -/
structure Geometry where
  set_size : Nat
  offset_size : Nat
  ways : Nat
  deriving DecidableEq, Repr

/-- The struct `FileLine`: one parsed record of the trace file. -/
structure FileLine where
  opt : Char
  addr : Nat
  size : Nat
  deriving DecidableEq, Repr

/-- The struct `Block`: one line slot (`int dirty; unsigned long tag`). -/
structure Block where
  dirty : Int
  tag : Nat
  deriving DecidableEq, Repr

/-- The struct `LRU`: the (set, way) index pair stored in a queue node. -/
structure LRU where
  x : Nat
  y : Nat
  deriving DecidableEq, Repr

/-- Modelled from the spec: `csim_stats_t` is declared in `cachelab.h`, which is
not among the sources.  The spec gives five non-negative counters; the
commented-out `printSummary` prints each with `%lu`.  Increments are kept
exact (a counter grows by one or by one block per record); the one
subtraction, on `dirty_bytes`, wraps around as `unsigned long` does
(see `dec_dirty_bytes`). -/
structure csim_stats_t where
  hits : Nat
  misses : Nat
  evictions : Nat
  dirty_bytes : Nat
  dirty_evictions : Nat
  deriving DecidableEq, Repr

/-- The global state of the simulator: the content of `cache[set][way]`, the
list `queues[set]` (head first) and `*res`.  The content is a grid of
blocks; which cells of the grid are memory the program owns is recorded by
`CacheMemory`, and `operationChecked` stops at an access outside it. -/
structure Sim where
  cache : Nat → Nat → Block
  queues : Nat → List LRU
  res : csim_stats_t

/-- The ways the program can stop inside `operation`: the `Queue is empty.`
exit of `pop`; reading `queues[set].top->data.y` through a null `top`;
using `cache[set]` when that row pointer is NULL (its malloc failed); and
touching `cache[set][way]` beyond the end of the row.  The last two are
undefined behaviour in C and are modelled as a stop. -/
inductive Fault where
  | queueEmpty
  | nullTop
  | nullRow
  | outOfRow
  deriving DecidableEq, Repr

/-! ## Geometry-derived values (main, lines 186-191, and operation, line 419) -/

/-- The local `sets = (1ul << s_ul)` of main. -/
def sets (g : Geometry) : Nat := shl64 1 g.set_size

/-- The local `lines = (1ul << E_ul)` of main: the number of blocks
allocated per set. -/
def lines (g : Geometry) : Nat := shl64 1 g.ways

/-- The local `offsets = (1ul << b_ul)` of main. -/
def offsets (g : Geometry) : Nat := shl64 1 g.offset_size

/-- The global `set_mask = (sets * offsets - 1ul) - (offsets - 1ul)`. -/
def set_mask (g : Geometry) : Nat :=
  sub64 (sub64 (mul64 (sets g) (offsets g)) 1) (sub64 (offsets g) 1)

/-- The global `tag_mask = (mask - 1ul) ^ ((1ul << (s_ul + b_ul)) - 1ul)`. -/
def tag_mask (g : Geometry) : Nat :=
  (sub64 mask 1) ^^^ (sub64 (shl64 1 (add64 g.set_size g.offset_size)) 1)

/-- The local `offset_byte = (1 << offset_size)` of operation: the shift is
done on the `int` constant 1 and the result is widened to `unsigned long`.
For `offset_size <= 30` this is the exact power of two.  Beyond that the C
shift overflows `int`; the model takes what x86-64 compilers produce: the
count is reduced modulo 32 and the 32-bit result is sign-extended. -/
def offset_byte (g : Geometry) : Nat :=
  let v := 2 ^ (g.offset_size % 32)
  if v < 2 ^ 31 then v else v + (2 ^ 64 - 2 ^ 32)

/-- The local `set = (addr & set_mask) >> offset_size` of operation. -/
def setIndex (g : Geometry) (addr : Nat) : Nat :=
  (addr &&& set_mask g) >>> g.offset_size

/-- The local `curTag = (addr & tag_mask) >> (set_size + offset_size)` of operation. -/
def curTag (g : Geometry) (addr : Nat) : Nat :=
  (addr &&& tag_mask g) >>> add64 g.set_size g.offset_size

/-! ## Cache grid and recency queues -/

/-- What `allocateCache` leaves in memory: an array of `sets` row pointers;
`rowOk i` says that row `i` lies in that array and that its pointer is not
NULL; every such row has `lines` blocks; `blocks i j` is the content of
block `j` of row `i`. -/
structure CacheMemory where
  sets : Nat
  lines : Nat
  rowOk : Nat → Bool
  blocks : Nat → Nat → Block

/-- Function `allocateCache(sets, lines)`.  The argument `mallocOk i` is the
outcome of the malloc of row `i` (line 319): a failed row stays NULL and the
function goes on (line 320 has no else branch).  Each block of an allocated
row starts clean with tag `UINT64_MAX` (lines 321-324).  The grid `blocks`
shows the same content in the cells outside the allocated rows; those cells
are not memory of the program, and the checked steps (`operationChecked`)
stop before touching one. -/
def allocateCache (sets lines : Nat) (mallocOk : Nat → Bool) : CacheMemory :=
  { sets := sets
    lines := lines
    rowOk := fun i => decide (i < sets) && mallocOk i
    blocks := fun _ _ => { dirty := 0, tag := UINT64_MAX } }

/-- Function `allocateQueueArray`: every queue starts with `top = NULL`. -/
def allocateQueueArray (_numQueues : Nat) : Nat → List LRU :=
  fun _ => []

/-- Assignment to `cache[i][j]`. -/
def setBlock (c : Nat → Nat → Block) (i j : Nat) (blk : Block) : Nat → Nat → Block :=
  fun i2 j2 => if i2 = i ∧ j2 = j then blk else c i2 j2

/-- Assignment to the list hanging off `queues[i].top`. -/
def setQueue (q : Nat → List LRU) (i : Nat) (l : List LRU) : Nat → List LRU :=
  fun i2 => if i2 = i then l else q i2

/-- Function `push`: a new node in front of `queues[set].top`. -/
def push (queues : Nat → List LRU) (set : Nat) (ele : LRU) : Nat → List LRU :=
  setQueue queues set (ele :: queues set)

/-- The walk of `pop` to the last node: returns the data of the last node and
the list without it.  The first argument is the current node, the second
the nodes after it. -/
def popLast : LRU → List LRU → LRU × List LRU
  | a, [] => (a, [])
  | a, b :: t => ((popLast b t).1, a :: (popLast b t).2)

/-- Function `pop`: exits on an empty queue, otherwise unlinks and returns
the last node of `queues[set]`. -/
def pop (queues : Nat → List LRU) (set : Nat) : Except Fault (LRU × (Nat → List LRU)) :=
  match queues set with
  | [] => Except.error Fault.queueEmpty
  | a :: t => Except.ok ((popLast a t).1, setQueue queues set (popLast a t).2)

/-! ## The access processor -/

/-- How the `for` loop of operation ends: `miss ind` is the break in the
first branch (empty line at `ind`), `hit ind` the break in the second
branch (tag match at `ind`), `full` the exit with `loopTime == ways`. -/
inductive Scan where
  | miss (ind : Nat)
  | hit (ind : Nat)
  | full
  deriving DecidableEq, Repr

/-- The `for` loop of operation over one row of the cache, with `n`
iterations left and the loop variable at `ind`. -/
def scanLoop (row : Nat → Block) (tag : Nat) : Nat → Nat → Scan
  | 0, _ => Scan.full
  | n + 1, ind =>
    if (row ind).tag = UINT64_MAX then Scan.miss ind
    else if (row ind).tag = tag then Scan.hit ind
    else scanLoop row tag n (ind + 1)

/-- The outcome of the loop of operation for the access `addr` in state `st`. -/
def path (g : Geometry) (st : Sim) (addr : Nat) : Scan :=
  scanLoop (st.cache (setIndex g addr)) (curTag g addr) g.ways 0

/-- The statement `res->dirty_bytes -= offset_byte`, with the wrap-around of
`unsigned long` when the subtrahend is the larger. -/
def dec_dirty_bytes (d ob : Nat) : Nat :=
  if ob ≤ d then d - ob else d + 2 ^ 64 - ob

/-- Body of the first branch of the loop (lines 426-443): clean miss at `ind`. -/
def missBody (g : Geometry) (st : Sim) (opt : Char) (set tag ind : Nat) : Sim :=
  let queues := push st.queues set { x := set, y := ind }
  let blk := st.cache set ind
  if opt = 'S' then
    { cache := setBlock st.cache set ind { dirty := 1, tag := tag }
      queues := queues
      res := { st.res with
        dirty_bytes := st.res.dirty_bytes + offset_byte g
        misses := st.res.misses + 1 } }
  else
    { cache := setBlock st.cache set ind { dirty := blk.dirty, tag := tag }
      queues := queues
      res := { st.res with misses := st.res.misses + 1 } }

/-- Body of the second branch of the loop (lines 445-467): hit at `ind`. -/
def hitBody (g : Geometry) (st : Sim) (opt : Char) (set ind : Nat) : Except Fault Sim :=
  match st.queues set with
  | [] => Except.error Fault.nullTop
  | top :: _ =>
    let popped : Except Fault (Nat → List LRU) :=
      if top.y ≠ ind then
        match pop st.queues set with
        | Except.error e => Except.error e
        | Except.ok r => Except.ok (push r.2 set r.1)
      else Except.ok st.queues
    match popped with
    | Except.error e => Except.error e
    | Except.ok queues =>
      let blk := st.cache set ind
      if blk.dirty = 0 ∧ opt = 'S' then
        Except.ok
          { cache := setBlock st.cache set ind { dirty := 1, tag := blk.tag }
            queues := queues
            res := { st.res with
              dirty_bytes := st.res.dirty_bytes + offset_byte g
              hits := st.res.hits + 1 } }
      else
        Except.ok
          { cache := st.cache
            queues := queues
            res := { st.res with hits := st.res.hits + 1 } }

/-- Body of the block after the loop (lines 471-504): eviction miss. -/
def evictBody (g : Geometry) (st : Sim) (opt : Char) (set tag : Nat) : Except Fault Sim :=
  match pop st.queues set with
  | Except.error e => Except.error e
  | Except.ok r =>
    let popLRU := r.1
    let queues := push r.2 set popLRU
    let x_set := popLRU.x
    let y_line := popLRU.y
    let blk := st.cache x_set y_line
    let dirty1 : Int :=
      if blk.dirty = 1 then (if opt = 'L' then 0 else blk.dirty)
      else (if opt = 'S' then 1 else blk.dirty)
    let bytes1 : Nat :=
      if blk.dirty = 1 then
        (if opt = 'L' then dec_dirty_bytes st.res.dirty_bytes (offset_byte g)
         else st.res.dirty_bytes)
      else (if opt = 'S' then st.res.dirty_bytes + offset_byte g else st.res.dirty_bytes)
    let devict1 : Nat :=
      if blk.dirty = 1 then st.res.dirty_evictions + offset_byte g
      else st.res.dirty_evictions
    Except.ok
      { cache := setBlock st.cache x_set y_line { dirty := dirty1, tag := tag }
        queues := queues
        res := { st.res with
          dirty_bytes := bytes1
          dirty_evictions := devict1
          evictions := st.res.evictions + 1
          misses := st.res.misses + 1 } }

/-- Function `operation`: one access of kind `opt` to address `addr`. -/
def operation (g : Geometry) (st : Sim) (opt : Char) (addr : Nat) : Except Fault Sim :=
  match scanLoop (st.cache (setIndex g addr)) (curTag g addr) g.ways 0 with
  | Scan.miss ind => Except.ok (missBody g st opt (setIndex g addr) (curTag g addr) ind)
  | Scan.hit ind => hitBody g st opt (setIndex g addr) ind
  | Scan.full => evictBody g st opt (setIndex g addr) (curTag g addr)

/-- The state main builds before the trace is read: empty cache, empty
queues, all five counters zero. -/
def init (g : Geometry) : Sim :=
  { cache := (allocateCache (sets g) (lines g) (fun _ => true)).blocks
    queues := allocateQueueArray (sets g)
    res := { hits := 0, misses := 0, evictions := 0, dirty_bytes := 0, dirty_evictions := 0 } }

/-- The loop of `process_trace_file` over the parsed lines, started in `st`. -/
def process_trace_file (g : Geometry) : Sim → List FileLine → Except Fault Sim
  | st, [] => Except.ok st
  | st, l :: ls =>
    match operation g st l.opt l.addr with
    | Except.error e => Except.error e
    | Except.ok st2 => process_trace_file g st2 ls

/-- A whole run: `init` followed by the trace. -/
def run (g : Geometry) (tr : List FileLine) : Except Fault Sim :=
  process_trace_file g (init g) tr

/-- The state a run ends in (the initial state if the run stopped early). -/
def stateAfter (g : Geometry) (tr : List FileLine) : Sim :=
  match run g tr with
  | Except.ok st => st
  | Except.error _ => init g

/-! ## Memory safety of the slot accesses -/

/-- The memory main obtains for the cache: its call `allocateCache(sets, lines)`
with `sets = 1ul << s` and `lines = 1ul << E`, under the malloc outcomes
`mallocOk`. -/
def cacheMemory (g : Geometry) (mallocOk : Nat → Bool) : CacheMemory :=
  allocateCache (sets g) (lines g) mallocOk

/-- The fault, if any, of touching `cache[i][j]`: the row pointer must be
valid and `j` must lie inside the row. -/
def slotFault (m : CacheMemory) (i j : Nat) : Option Fault :=
  if m.rowOk i = false then some Fault.nullRow
  else if m.lines ≤ j then some Fault.outOfRow
  else none

/-- The `for` loop of operation as `scanLoop`, stopping at the first read of
`cache[set][ind]` that lies outside the memory `m`. -/
def scanLoopChecked (m : CacheMemory) (set : Nat) (row : Nat → Block) (tag : Nat) :
    Nat → Nat → Except Fault Scan
  | 0, _ => Except.ok Scan.full
  | n + 1, ind =>
    match slotFault m set ind with
    | some f => Except.error f
    | none =>
      if (row ind).tag = UINT64_MAX then Except.ok (Scan.miss ind)
      else if (row ind).tag = tag then Except.ok (Scan.hit ind)
      else scanLoopChecked m set row tag n (ind + 1)

/-- Function `operation` with every slot access checked against the memory
`m`: the reads of the loop, and on the eviction path the access to
`cache[x_set][y_line]` of the popped node. -/
def operationChecked (g : Geometry) (m : CacheMemory) (st : Sim) (opt : Char) (addr : Nat) :
    Except Fault Sim :=
  match scanLoopChecked m (setIndex g addr) (st.cache (setIndex g addr)) (curTag g addr)
      g.ways 0 with
  | Except.error f => Except.error f
  | Except.ok (Scan.miss ind) =>
    Except.ok (missBody g st opt (setIndex g addr) (curTag g addr) ind)
  | Except.ok (Scan.hit ind) => hitBody g st opt (setIndex g addr) ind
  | Except.ok Scan.full =>
    match pop st.queues (setIndex g addr) with
    | Except.error e => Except.error e
    | Except.ok r =>
      match slotFault m r.1.x r.1.y with
      | some f => Except.error f
      | none => evictBody g st opt (setIndex g addr) (curTag g addr)

/-- The loop of `process_trace_file` with checked slot accesses. -/
def processChecked (g : Geometry) (m : CacheMemory) : Sim → List FileLine → Except Fault Sim
  | st, [] => Except.ok st
  | st, l :: ls =>
    match operationChecked g m st l.opt l.addr with
    | Except.error e => Except.error e
    | Except.ok st2 => processChecked g m st2 ls

/-- A whole run with checked slot accesses, under the malloc outcomes `mallocOk`. -/
def runChecked (g : Geometry) (mallocOk : Nat → Bool) (tr : List FileLine) :
    Except Fault Sim :=
  processChecked g (cacheMemory g mallocOk) (init g) tr

/-- One set, 64 ways, one-byte blocks (`s = 0, b = 0, E = 64`). -/
def geomE64 : Geometry := { set_size := 0, offset_size := 0, ways := 64 }

/-- One set, two ways, blocks of `2^32` bytes (`s = 0, b = 32, E = 2`). -/
def geomB32E2 : Geometry := { set_size := 0, offset_size := 32, ways := 2 }

/-- One set, two ways, blocks of `2^31` bytes (`s = 0, b = 31, E = 2`). -/
def geomB31E2 : Geometry := { set_size := 0, offset_size := 31, ways := 2 }

/-- A load record for address `a`. -/
def L (a : Nat) : FileLine := { opt := 'L', addr := a, size := 1 }

/-- A store record for address `a`. -/
def S (a : Nat) : FileLine := { opt := 'S', addr := a, size := 1 }

/-! ## Notions used to state the properties -/

/-- A geometry is valid when `E >= 1` and `s + b < 64`. -/
def Valid (g : Geometry) : Prop := 1 ≤ g.ways ∧ g.set_size + g.offset_size < 64

instance (g : Geometry) : Decidable (Valid g) := by
  unfold Valid
  infer_instance

/-- A state is reachable when some trace, replayed from the empty cache, ends in it. -/
def Reachable (g : Geometry) (st : Sim) : Prop := ∃ tr, run g tr = Except.ok st

/-- One for a block whose dirty flag is set, zero otherwise. -/
def dirtyBit (blk : Block) : Nat := if blk.dirty ≠ 0 then 1 else 0

/-- Number of blocks with a set dirty flag among rows `< R` and columns `< C`. -/
def dirtyCount (c : Nat → Nat → Block) (R C : Nat) : Nat :=
  Finset.sum (Finset.range R) fun i => Finset.sum (Finset.range C) fun j => dirtyBit (c i j)

/-- The way indices (`data.y`) of a recency list, head first. -/
def waysOf (q : List LRU) : List Nat := q.map LRU.y

/-- The node `pop` would return for this list, if any. -/
def victim (q : List LRU) : Option LRU :=
  match q with
  | [] => none
  | a :: t => some (popLast a t).1

/-- The slot an access touches: the filled way on a clean miss, the matching
way on a hit, the popped node on an eviction miss. -/
def touched (g : Geometry) (st : Sim) (addr : Nat) : Option LRU :=
  match path g st addr with
  | Scan.miss ind => some { x := setIndex g addr, y := ind }
  | Scan.hit ind => some { x := setIndex g addr, y := ind }
  | Scan.full => victim (st.queues (setIndex g addr))

/-- The slots touched by the records of a trace, in order, started in `st`. -/
def touchLog (g : Geometry) : Sim → List FileLine → List (Option LRU)
  | _, [] => []
  | st, l :: ls =>
    touched g st l.addr ::
      (match operation g st l.opt l.addr with
       | Except.error _ => []
       | Except.ok st2 => touchLog g st2 ls)

/-- Position in the log of the most recent touch of slot `e`, counting from 0;
`none` when the slot was never touched.  The argument `n` is the position of
the head of the log. -/
def lastTouchFrom (e : LRU) : Nat → List (Option LRU) → Option Nat
  | _, [] => none
  | n, t :: ts =>
    match lastTouchFrom e (n + 1) ts with
    | some m => some m
    | none => if t = some e then some n else none

/-- Position of the most recent touch of way `w` of set `i` in the run of `tr`. -/
def lastTouch (g : Geometry) (tr : List FileLine) (i w : Nat) : Option Nat :=
  lastTouchFrom { x := i, y := w } 0 (touchLog g (init g) tr)

/-- The address check of `parse_line` (lines 279-284): `strtoul` must not
overflow 64 bits and the value must not exceed `mask`. -/
def addr_accepted (a : Nat) : Bool := decide (a < 2 ^ 64) && !decide (a > mask)

/-- One set, one way, one-byte blocks (`s = 0, b = 0, E = 1`). -/
def geom1 : Geometry := { set_size := 0, offset_size := 0, ways := 1 }

/-- One set, two ways, one-byte blocks (`s = 0, b = 0, E = 2`). -/
def geom2 : Geometry := { set_size := 0, offset_size := 0, ways := 2 }

/-- One set, three ways, one-byte blocks (`s = 0, b = 0, E = 3`). -/
def geom3 : Geometry := { set_size := 0, offset_size := 0, ways := 3 }

/-- Four sets, two ways, four-byte blocks (`s = 2, b = 2, E = 2`). -/
def geom4 : Geometry := { set_size := 2, offset_size := 2, ways := 2 }

/-- The invariant of reachable states, over the cache grid `c`, the queues
`q` and the counter `db` (dirty_bytes).  In every set the occupied ways are
the ways below a fill level `k <= E`, the recency list holds exactly these
ways once each, every node carries its own set index, only rows below `2^s`
are ever filled, a dirty flag is 0 or 1 and set only on occupied slots, tags
are pairwise distinct inside a set, and `db` is one block per dirty slot. -/
structure Inv (g : Geometry) (c : Nat → Nat → Block) (q : Nat → List LRU) (db : Nat) :
    Prop where
  fill : ∀ i, ∃ k, k ≤ g.ways ∧ (∀ j, (c i j).tag ≠ UINT64_MAX ↔ j < k) ∧
    (waysOf (q i)).Perm (List.range k)
  qx : ∀ i, ∀ e ∈ q i, e.x = i
  rows : ∀ i j, (c i j).tag ≠ UINT64_MAX → i < 2 ^ g.set_size
  dirty01 : ∀ i j, (c i j).dirty = 0 ∨ ((c i j).dirty = 1 ∧ (c i j).tag ≠ UINT64_MAX)
  distinct : ∀ i j1 j2, (c i j1).tag ≠ UINT64_MAX → (c i j1).tag = (c i j2).tag → j1 = j2
  bytes : db = offset_byte g * dirtyCount c (2 ^ g.set_size) g.ways

/-- The invariant, on a simulator state. -/
def SimInv (g : Geometry) (st : Sim) : Prop :=
  Inv g st.cache st.queues st.res.dirty_bytes

/-! ## The cache store operations as the spec words them -/

/-- First index `j` with `ind <= j < ind + n` at which `p` holds, scanning upwards. -/
def findFrom (p : Nat → Bool) : Nat → Nat → Option Nat
  | 0, _ => none
  | n + 1, ind => if p ind then some ind else findFrom p n (ind + 1)

/-- Spec 4.3, `lookup(set, tag)`: linear scan over the `E` slots of the set in
ascending way order, comparing the tags of occupied slots; unoccupied slots
never match. -/
def lookup (row : Nat → Block) (E tag : Nat) : Option Nat :=
  findFrom (fun j => decide ((row j).tag ≠ UINT64_MAX) && decide ((row j).tag = tag)) E 0

/-- Spec 4.3, `first_empty_way(set)`: the lowest-indexed unoccupied way, if any. -/
def first_empty_way (row : Nat → Block) (E : Nat) : Option Nat :=
  findFrom (fun j => decide ((row j).tag = UINT64_MAX)) E 0

/-- Spec 4.4, the two-phase choice of path: hit if `lookup` finds a way,
otherwise clean miss if `first_empty_way` finds one, otherwise eviction. -/
def specPath (g : Geometry) (st : Sim) (addr : Nat) : Scan :=
  match lookup (st.cache (setIndex g addr)) g.ways (curTag g addr) with
  | some w => Scan.hit w
  | none =>
    match first_empty_way (st.cache (setIndex g addr)) g.ways with
    | some w => Scan.miss w
    | none => Scan.full

/-- One for an occupied block (tag different from `UINT64_MAX`), zero otherwise. -/
def occBit (blk : Block) : Nat := if blk.tag ≠ UINT64_MAX then 1 else 0

/-- Number of occupied blocks among rows `< R` and columns `< C`. -/
def occCount (c : Nat → Nat → Block) (R C : Nat) : Nat :=
  Finset.sum (Finset.range R) fun i => Finset.sum (Finset.range C) fun j => occBit (c i j)

/-- One set, one way, blocks of `2^31` bytes (`s = 0, b = 31, E = 1`). -/
def geomB31 : Geometry := { set_size := 0, offset_size := 31, ways := 1 }

/-- One set, one way, blocks of `2^32` bytes (`s = 0, b = 32, E = 1`). -/
def geomB32 : Geometry := { set_size := 0, offset_size := 32, ways := 1 }


/-! ## The reference model of spec sections 3 and 4 -/

/-- Spec 4.1, the address decoder: `set_index = (address >> b) mod 2^s` and
`tag = address >> (s + b)`. -/
def specDecode (g : Geometry) (addr : Nat) : Nat × Nat :=
  ((addr >>> g.offset_size) % 2 ^ g.set_size, addr >>> (g.set_size + g.offset_size))

/-- Spec 3, derived geometry: `block_size = 2^b`. -/
def block_size (g : Geometry) : Nat := 2 ^ g.offset_size

/-- The decoder of the code, as a pair (set index, tag). -/
def codeDecode (g : Geometry) (addr : Nat) : Nat × Nat :=
  (setIndex g addr, curTag g addr)

/-- Spec 3, the state of the reference model: the cache store (a slot is
unoccupied when its tag is the sentinel, the encoding the spec allows; the
dirty flag is 0 or 1), one recency sequence of way indices per set, most
recent first, and the statistics. -/
structure RefSim where
  slots : Nat → Nat → Block
  recency : Nat → List Nat
  stats : csim_stats_t

/-- Assignment to the recency sequence of set `i`. -/
def setSeq (r : Nat → List Nat) (i : Nat) (l : List Nat) : Nat → List Nat :=
  fun i2 => if i2 = i then l else r i2

/-- Spec 4.2, `mark_most_recent(set, way)`: no-op if `way` is at the front,
otherwise remove `way` from wherever it is (by value) and put it at the front. -/
def mark_most_recent (seq : List Nat) (way : Nat) : List Nat :=
  if seq.head? = some way then seq else way :: seq.erase way

/-- Spec 4.2, `insert_most_recent(set, way)`: insert at the front; fails if
`way` is already present. -/
def insert_most_recent (seq : List Nat) (way : Nat) : Option (List Nat) :=
  if way ∈ seq then none else some (way :: seq)

/-- Spec 4.2, `evict_least_recent(set)`: remove and return the index at the
back; fails if the sequence is shorter than `E`. -/
def evict_least_recent (E : Nat) (seq : List Nat) : Option (Nat × List Nat) :=
  if seq.length < E then none
  else
    match seq.getLast? with
    | none => none
    | some w => some (w, seq.dropLast)

/-- Spec 4.4, the access processor of the reference model, for one record.
The decoder `dec` and the block size `bs` are those of the geometry; `none`
is the fatal internal-consistency error. -/
def refAccess (E : Nat) (dec : Nat → Nat × Nat) (bs : Nat) (ref : RefSim) (l : FileLine) :
    Option RefSim :=
  match lookup (ref.slots (dec l.addr).1) E (dec l.addr).2 with
  | some w =>
    some
      { slots :=
          if l.opt = 'S' ∧ (ref.slots (dec l.addr).1 w).dirty = 0 then
            setBlock ref.slots (dec l.addr).1 w
              { dirty := 1, tag := (ref.slots (dec l.addr).1 w).tag }
          else ref.slots
        recency :=
          setSeq ref.recency (dec l.addr).1 (mark_most_recent (ref.recency (dec l.addr).1) w)
        stats := { ref.stats with
          hits := ref.stats.hits + 1
          dirty_bytes :=
            if l.opt = 'S' ∧ (ref.slots (dec l.addr).1 w).dirty = 0 then
              ref.stats.dirty_bytes + bs
            else ref.stats.dirty_bytes } }
  | none =>
    match first_empty_way (ref.slots (dec l.addr).1) E with
    | some w =>
      match insert_most_recent (ref.recency (dec l.addr).1) w with
      | none => none
      | some seq =>
        some
          { slots := setBlock ref.slots (dec l.addr).1 w
              { dirty := if l.opt = 'S' then 1 else 0, tag := (dec l.addr).2 }
            recency := setSeq ref.recency (dec l.addr).1 seq
            stats := { ref.stats with
              misses := ref.stats.misses + 1
              dirty_bytes :=
                if l.opt = 'S' then ref.stats.dirty_bytes + bs else ref.stats.dirty_bytes } }
    | none =>
      match evict_least_recent E (ref.recency (dec l.addr).1) with
      | none => none
      | some r =>
        match insert_most_recent r.2 r.1 with
        | none => none
        | some seq =>
          some
            { slots := setBlock ref.slots (dec l.addr).1 r.1
                { dirty := if l.opt = 'S' then 1 else 0, tag := (dec l.addr).2 }
              recency := setSeq ref.recency (dec l.addr).1 seq
              stats := { ref.stats with
                misses := ref.stats.misses + 1
                evictions := ref.stats.evictions + 1
                dirty_evictions :=
                  if (ref.slots (dec l.addr).1 r.1).dirty ≠ 0 then
                    ref.stats.dirty_evictions + bs
                  else ref.stats.dirty_evictions
                dirty_bytes :=
                  if (ref.slots (dec l.addr).1 r.1).dirty ≠ 0 ∧ ¬ l.opt = 'S' then
                    ref.stats.dirty_bytes - bs
                  else if ¬ (ref.slots (dec l.addr).1 r.1).dirty ≠ 0 ∧ l.opt = 'S' then
                    ref.stats.dirty_bytes + bs
                  else ref.stats.dirty_bytes } }

/-- The reference model before any record: every slot empty and clean, every
recency sequence empty, all statistics zero. -/
def refInit : RefSim :=
  { slots := fun _ _ => { dirty := 0, tag := UINT64_MAX }
    recency := fun _ => []
    stats := { hits := 0, misses := 0, evictions := 0, dirty_bytes := 0, dirty_evictions := 0 } }

/-- The reference model replayed over a trace, started in `ref`. -/
def refProcess (E : Nat) (dec : Nat → Nat × Nat) (bs : Nat) :
    RefSim → List FileLine → Option RefSim
  | ref, [] => some ref
  | ref, l :: ls =>
    match refAccess E dec bs ref l with
    | none => none
    | some ref2 => refProcess E dec bs ref2 ls

/-- The reference model of the spec for geometry `g`, replayed from the empty
cache: decoder of spec 4.1, block size `2^b`. -/
def refRun (g : Geometry) (tr : List FileLine) : Option RefSim :=
  refProcess g.ways (specDecode g) (block_size g) refInit tr

/-- The statistics the reference model ends with (all zero if it failed). -/
def refStats (g : Geometry) (tr : List FileLine) : csim_stats_t :=
  match refRun g tr with
  | some ref => ref.stats
  | none => { hits := 0, misses := 0, evictions := 0, dirty_bytes := 0, dirty_evictions := 0 }

/-- The simulator state and the reference state agree: same slots (tag and
dirty flag), same way order in every recency list, same statistics. -/
def Agree (st : Sim) (ref : RefSim) : Prop :=
  ref.slots = st.cache ∧ (∀ i, ref.recency i = waysOf (st.queues i)) ∧ ref.stats = st.res

/-- Every record of the trace is a Load or a Store. -/
def LoadStore (tr : List FileLine) : Prop := ∀ l ∈ tr, l.opt = 'S' ∨ l.opt = 'L'


/-! ## Arithmetic of the address decoder -/

theorem sub64_of_le {a b : Nat} (ha : a < 2 ^ 64) (hb : b ≤ a) : sub64 a b = a - b := by
  unfold sub64
  omega

theorem shl64_one {n : Nat} (hn : n < 64) : shl64 1 n = 2 ^ n := by
  unfold shl64
  rw [Nat.one_shiftLeft]
  exact Nat.mod_eq_of_lt (Nat.pow_lt_pow_right (by decide) hn)

theorem two_pow_lt_of_lt_64 {n : Nat} (hn : n < 64) : 2 ^ n < 2 ^ 64 :=
  Nat.pow_lt_pow_right (by decide) hn

theorem add64_of_lt {a b : Nat} (h : a + b < 64) : add64 a b = a + b := by
  unfold add64
  omega

theorem set_mask_eq (g : Geometry) (h : g.set_size + g.offset_size < 64) :
    set_mask g = (2 ^ g.set_size - 1) <<< g.offset_size := by
  have hs : g.set_size < 64 := by omega
  have hb : g.offset_size < 64 := by omega
  have hsb := two_pow_lt_of_lt_64 h
  have hb2 := two_pow_lt_of_lt_64 hb
  have hpos : 0 < 2 ^ g.offset_size := Nat.two_pow_pos _
  have hposs : 0 < 2 ^ g.set_size := Nat.two_pow_pos _
  have hmul : 2 ^ g.set_size * 2 ^ g.offset_size = 2 ^ (g.set_size + g.offset_size) :=
    (Nat.pow_add 2 _ _).symm
  have hle : 2 ^ g.offset_size ≤ 2 ^ (g.set_size + g.offset_size) :=
    Nat.pow_le_pow_right (by decide) (by omega)
  unfold set_mask sets offsets mul64
  rw [shl64_one hs, shl64_one hb, hmul, Nat.mod_eq_of_lt hsb,
    sub64_of_le hsb (by omega), sub64_of_le hb2 (by omega),
    sub64_of_le (by omega) (by omega), Nat.shiftLeft_eq, Nat.sub_mul, hmul]
  omega

theorem tag_mask_eq (g : Geometry) (h : g.set_size + g.offset_size < 64) :
    tag_mask g = (2 ^ 63 - 1) ^^^ (2 ^ (g.set_size + g.offset_size) - 1) := by
  have hsb := two_pow_lt_of_lt_64 h
  have hpos : 0 < 2 ^ (g.set_size + g.offset_size) := Nat.two_pow_pos _
  unfold tag_mask mask
  rw [add64_of_lt h, shl64_one h, sub64_of_le (by decide) (by decide),
    sub64_of_le hsb (by omega)]

theorem setIndex_eq (g : Geometry) (h : g.set_size + g.offset_size < 64) (addr : Nat) :
    setIndex g addr = (addr >>> g.offset_size) % 2 ^ g.set_size := by
  unfold setIndex
  rw [set_mask_eq g h]
  apply Nat.eq_of_testBit_eq
  intro i
  simp only [Nat.testBit_shiftRight, Nat.testBit_and, Nat.testBit_shiftLeft,
    Nat.testBit_two_pow_sub_one, Nat.testBit_mod_two_pow]
  have e : g.offset_size + i - g.offset_size = i := by omega
  rw [e]
  by_cases hi : i < g.set_size <;> simp [hi]

theorem setIndex_lt (g : Geometry) (h : g.set_size + g.offset_size < 64) (addr : Nat) :
    setIndex g addr < 2 ^ g.set_size := by
  rw [setIndex_eq g h]
  exact Nat.mod_lt _ (Nat.two_pow_pos _)

theorem curTag_testBit (g : Geometry) (h : g.set_size + g.offset_size < 64) (addr i : Nat) :
    (curTag g addr).testBit i =
      (addr.testBit (g.set_size + g.offset_size + i) &&
        decide (g.set_size + g.offset_size + i < 63)) := by
  unfold curTag
  rw [tag_mask_eq g h, add64_of_lt h]
  simp only [Nat.testBit_shiftRight, Nat.testBit_and, Nat.testBit_xor,
    Nat.testBit_two_pow_sub_one]
  have e : ¬ (g.set_size + g.offset_size + i < g.set_size + g.offset_size) := by omega
  simp [e]

theorem curTag_eq (g : Geometry) (h : g.set_size + g.offset_size < 64) (addr : Nat)
    (ha : addr < 2 ^ 63) : curTag g addr = addr >>> (g.set_size + g.offset_size) := by
  apply Nat.eq_of_testBit_eq
  intro i
  rw [curTag_testBit g h, Nat.testBit_shiftRight]
  by_cases hi : g.set_size + g.offset_size + i < 63
  · simp [hi]
  · have hlt : addr < 2 ^ (g.set_size + g.offset_size + i) :=
      lt_of_lt_of_le ha (Nat.pow_le_pow_right (by decide) (by omega))
    simp [hi, Nat.testBit_lt_two_pow hlt]

theorem curTag_top_address (g : Geometry) (h : g.set_size + g.offset_size < 64) :
    curTag g (2 ^ 63) = 0 ∧ (2 ^ 63) >>> (g.set_size + g.offset_size) ≠ 0 := by
  constructor
  · apply Nat.eq_of_testBit_eq
    intro i
    rw [curTag_testBit g h, Nat.testBit_two_pow, Nat.zero_testBit]
    by_cases hi : g.set_size + g.offset_size + i < 63
    · have : ¬ (63 = g.set_size + g.offset_size + i) := by omega
      simp [this]
    · simp [hi]
  · rw [Nat.shiftRight_eq_div_pow]
    have hle : 2 ^ (g.set_size + g.offset_size) ≤ 2 ^ 63 :=
      Nat.pow_le_pow_right (by decide) (by omega)
    have hpos : 0 < 2 ^ (g.set_size + g.offset_size) := Nat.two_pow_pos _
    exact Nat.ne_of_gt (Nat.div_pos hle hpos)

theorem curTag_lt (g : Geometry) (h : g.set_size + g.offset_size < 64) (addr : Nat) :
    curTag g addr < 2 ^ 63 := by
  apply Nat.lt_pow_two_of_testBit
  intro i hi
  rw [curTag_testBit g h]
  have e : ¬ (g.set_size + g.offset_size + i < 63) := by omega
  simp [e]

theorem curTag_ne_max (g : Geometry) (h : g.set_size + g.offset_size < 64) (addr : Nat) :
    curTag g addr ≠ UINT64_MAX := by
  have := curTag_lt g h addr
  unfold UINT64_MAX
  omega

theorem offset_byte_eq (g : Geometry) (h : g.offset_size ≤ 30) :
    offset_byte g = 2 ^ g.offset_size := by
  have hlt : (2 : Nat) ^ g.offset_size < 2 ^ 31 := Nat.pow_lt_pow_right (by decide) (by omega)
  unfold offset_byte
  rw [Nat.mod_eq_of_lt (by omega : g.offset_size < 32)]
  exact if_pos hlt


/-! ## Recency lists -/

theorem popLast_append (a : LRU) (t : List LRU) :
    (popLast a t).2 ++ [(popLast a t).1] = a :: t := by
  induction t generalizing a with
  | nil => rfl
  | cons b t ih =>
    show a :: ((popLast b t).2 ++ [(popLast b t).1]) = a :: b :: t
    rw [ih]

theorem popLast_fst (a : LRU) (t : List LRU) :
    (popLast a t).1 = (a :: t).getLast (List.cons_ne_nil a t) := by
  induction t generalizing a with
  | nil => rfl
  | cons b t ih =>
    show (popLast b t).1 = _
    rw [ih, List.getLast_cons (List.cons_ne_nil b t)]

theorem popLast_snd (a : LRU) (t : List LRU) :
    (popLast a t).2 = (a :: t).dropLast := by
  induction t generalizing a with
  | nil => rfl
  | cons b t ih =>
    show a :: (popLast b t).2 = _
    rw [ih]
    rfl

theorem popLast_length (a : LRU) (t : List LRU) :
    ((popLast a t).1 :: (popLast a t).2).length = (a :: t).length := by
  have h := congrArg List.length (popLast_append a t)
  simp only [List.length_append, List.length_cons, List.length_nil] at h
  simp only [List.length_cons]
  omega

theorem popLast_perm (a : LRU) (t : List LRU) :
    ((popLast a t).1 :: (popLast a t).2).Perm (a :: t) := by
  have h := popLast_append a t
  have h2 : ((popLast a t).1 :: (popLast a t).2).Perm ((popLast a t).2 ++ [(popLast a t).1]) :=
    (List.perm_append_singleton _ _).symm
  rw [h] at h2
  exact h2

theorem popLast_mem (a : LRU) (t : List LRU) (e : LRU)
    (he : e ∈ (popLast a t).1 :: (popLast a t).2) : e ∈ a :: t :=
  (popLast_perm a t).mem_iff.mp he

theorem push_setQueue (q : Nat → List LRU) (i : Nat) (l : List LRU) (e : LRU) :
    push (setQueue q i l) i e = setQueue q i (e :: l) := by
  funext i2
  unfold push setQueue
  by_cases h : i2 = i <;> simp [h]

/-! ## The scan loop -/

theorem scan_miss {row : Nat → Block} {tag : Nat} {n ind w : Nat}
    (h : scanLoop row tag n ind = Scan.miss w) :
    ind ≤ w ∧ w < ind + n ∧ (row w).tag = UINT64_MAX ∧
      ∀ j, ind ≤ j → j < w → (row j).tag ≠ UINT64_MAX ∧ (row j).tag ≠ tag := by
  induction n generalizing ind with
  | zero => simp [scanLoop] at h
  | succ n ih =>
    unfold scanLoop at h
    by_cases h1 : (row ind).tag = UINT64_MAX
    · rw [if_pos h1] at h
      injection h with h
      subst h
      exact ⟨le_refl _, by omega, h1, fun j hj hj2 => by omega⟩
    · rw [if_neg h1] at h
      by_cases h2 : (row ind).tag = tag
      · rw [if_pos h2] at h
        cases h
      · rw [if_neg h2] at h
        obtain ⟨a, b, c, d⟩ := ih h
        refine ⟨by omega, by omega, c, fun j hj hj2 => ?_⟩
        by_cases hji : j = ind
        · subst hji
          exact ⟨h1, h2⟩
        · exact d j (by omega) hj2

theorem scan_hit {row : Nat → Block} {tag : Nat} {n ind w : Nat}
    (h : scanLoop row tag n ind = Scan.hit w) :
    ind ≤ w ∧ w < ind + n ∧ (row w).tag ≠ UINT64_MAX ∧ (row w).tag = tag ∧
      ∀ j, ind ≤ j → j < w → (row j).tag ≠ UINT64_MAX ∧ (row j).tag ≠ tag := by
  induction n generalizing ind with
  | zero => simp [scanLoop] at h
  | succ n ih =>
    unfold scanLoop at h
    by_cases h1 : (row ind).tag = UINT64_MAX
    · rw [if_pos h1] at h
      cases h
    · rw [if_neg h1] at h
      by_cases h2 : (row ind).tag = tag
      · rw [if_pos h2] at h
        injection h with h
        subst h
        exact ⟨le_refl _, by omega, h1, h2, fun j hj hj2 => by omega⟩
      · rw [if_neg h2] at h
        obtain ⟨a, b, c, c2, d⟩ := ih h
        refine ⟨by omega, by omega, c, c2, fun j hj hj2 => ?_⟩
        by_cases hji : j = ind
        · subst hji
          exact ⟨h1, h2⟩
        · exact d j (by omega) hj2

theorem scan_full {row : Nat → Block} {tag : Nat} {n ind : Nat}
    (h : scanLoop row tag n ind = Scan.full) :
    ∀ j, ind ≤ j → j < ind + n → (row j).tag ≠ UINT64_MAX ∧ (row j).tag ≠ tag := by
  induction n generalizing ind with
  | zero => intro j hj hj2; omega
  | succ n ih =>
    unfold scanLoop at h
    by_cases h1 : (row ind).tag = UINT64_MAX
    · rw [if_pos h1] at h
      cases h
    · rw [if_neg h1] at h
      by_cases h2 : (row ind).tag = tag
      · rw [if_pos h2] at h
        cases h
      · rw [if_neg h2] at h
        intro j hj hj2
        by_cases hji : j = ind
        · subst hji
          exact ⟨h1, h2⟩
        · exact ih h j (by omega) (by omega)

theorem scan_miss_of {row : Nat → Block} {tag : Nat} {n ind w : Nat}
    (h1 : ind ≤ w) (h2 : w < ind + n) (h3 : (row w).tag = UINT64_MAX)
    (h4 : ∀ j, ind ≤ j → j < w → (row j).tag ≠ UINT64_MAX ∧ (row j).tag ≠ tag) :
    scanLoop row tag n ind = Scan.miss w := by
  induction n generalizing ind with
  | zero => omega
  | succ n ih =>
    unfold scanLoop
    by_cases hw : ind = w
    · subst hw
      rw [if_pos h3]
    · have := h4 ind (le_refl _) (by omega)
      rw [if_neg this.1, if_neg this.2]
      exact ih (by omega) (by omega) (fun j hj hj2 => h4 j (by omega) hj2)

/-! ## Counting dirty blocks -/

theorem sum_update_one (f f2 : Nat → Nat) (C c : Nat) (hc : c < C)
    (h : ∀ j, j ≠ c → f2 j = f j) :
    Finset.sum (Finset.range C) f2 + f c = Finset.sum (Finset.range C) f + f2 c := by
  have hm : c ∈ Finset.range C := Finset.mem_range.mpr hc
  have h1 := Finset.add_sum_erase (Finset.range C) f hm
  have h2 := Finset.add_sum_erase (Finset.range C) f2 hm
  have h3 : Finset.sum ((Finset.range C).erase c) f2 = Finset.sum ((Finset.range C).erase c) f :=
    Finset.sum_congr rfl (fun x hx => h x (Finset.ne_of_mem_erase hx))
  rw [← h1, ← h2, h3]
  ring

theorem setBlock_same (c : Nat → Nat → Block) (i j : Nat) (blk : Block) :
    setBlock c i j blk i j = blk := by
  simp [setBlock]

theorem setBlock_other (c : Nat → Nat → Block) (i j : Nat) (blk : Block) (i2 j2 : Nat)
    (h : ¬ (i2 = i ∧ j2 = j)) : setBlock c i j blk i2 j2 = c i2 j2 := by
  simp [setBlock, h]

theorem setBlock_setBlock (c : Nat → Nat → Block) (i j : Nat) (b1 b2 : Block) :
    setBlock (setBlock c i j b1) i j b2 = setBlock c i j b2 := by
  funext i2 j2
  unfold setBlock
  by_cases h : i2 = i ∧ j2 = j <;> simp [h]

theorem setBlock_tag_same (c : Nat → Nat → Block) (i j : Nat) (d : Int) (i2 j2 : Nat) :
    (setBlock c i j { dirty := d, tag := (c i j).tag } i2 j2).tag = (c i2 j2).tag := by
  unfold setBlock
  by_cases h : i2 = i ∧ j2 = j
  · rw [if_pos h, h.1, h.2]
  · rw [if_neg h]

theorem setBlock_dirty_same (c : Nat → Nat → Block) (i j : Nat) (t : Nat) (i2 j2 : Nat) :
    (setBlock c i j { dirty := (c i j).dirty, tag := t } i2 j2).dirty = (c i2 j2).dirty := by
  unfold setBlock
  by_cases h : i2 = i ∧ j2 = j
  · rw [if_pos h, h.1, h.2]
  · rw [if_neg h]

theorem dirtyCount_setBlock (c : Nat → Nat → Block) (R C i j : Nat) (blk : Block)
    (hi : i < R) (hj : j < C) :
    dirtyCount (setBlock c i j blk) R C + dirtyBit (c i j) =
      dirtyCount c R C + dirtyBit blk := by
  unfold dirtyCount
  have hrow : Finset.sum (Finset.range C) (fun j2 => dirtyBit (setBlock c i j blk i j2)) +
      dirtyBit (c i j) =
      Finset.sum (Finset.range C) (fun j2 => dirtyBit (c i j2)) + dirtyBit blk := by
    have := sum_update_one (fun j2 => dirtyBit (c i j2))
      (fun j2 => dirtyBit (setBlock c i j blk i j2)) C j hj
      (fun j2 hj2 => by
        show dirtyBit (setBlock c i j blk i j2) = dirtyBit (c i j2)
        rw [setBlock_other c i j blk i j2 (fun h => hj2 h.2)])
    simpa [setBlock_same] using this
  have hm : i ∈ Finset.range R := Finset.mem_range.mpr hi
  have h1 := Finset.add_sum_erase (Finset.range R)
    (fun i2 => Finset.sum (Finset.range C) fun j2 => dirtyBit (c i2 j2)) hm
  have h2 := Finset.add_sum_erase (Finset.range R)
    (fun i2 => Finset.sum (Finset.range C) fun j2 => dirtyBit (setBlock c i j blk i2 j2)) hm
  have h3 : Finset.sum ((Finset.range R).erase i)
        (fun i2 => Finset.sum (Finset.range C) fun j2 => dirtyBit (setBlock c i j blk i2 j2)) =
      Finset.sum ((Finset.range R).erase i)
        (fun i2 => Finset.sum (Finset.range C) fun j2 => dirtyBit (c i2 j2)) := by
    apply Finset.sum_congr rfl
    intro i2 hi2
    apply Finset.sum_congr rfl
    intro j2 _
    rw [setBlock_other c i j blk i2 j2 (fun h => Finset.ne_of_mem_erase hi2 h.1)]
  rw [← h1, ← h2, h3]
  simp only
  linarith

theorem dirtyCount_congr (c c2 : Nat → Nat → Block) (R C : Nat)
    (h : ∀ i j, (c2 i j).dirty = (c i j).dirty) : dirtyCount c2 R C = dirtyCount c R C := by
  unfold dirtyCount dirtyBit
  apply Finset.sum_congr rfl
  intro i _
  apply Finset.sum_congr rfl
  intro j _
  rw [h]

theorem dirtyCount_cols (c : Nat → Nat → Block) (R E C : Nat) (hEC : E ≤ C)
    (h : ∀ i j, E ≤ j → (c i j).dirty = 0) : dirtyCount c R C = dirtyCount c R E := by
  unfold dirtyCount
  apply Finset.sum_congr rfl
  intro i _
  symm
  apply Finset.sum_subset
  · intro j hj
    exact Finset.mem_range.mpr (lt_of_lt_of_le (Finset.mem_range.mp hj) hEC)
  · intro j _ hj
    have : E ≤ j := by
      by_contra hlt
      exact hj (Finset.mem_range.mpr (by omega))
    simp [dirtyBit, h i j this]

/-! ## The invariant is kept by each elementary update -/

theorem inv_init (g : Geometry) : SimInv g (init g) := by
  refine ⟨?_, ?_, ?_, ?_, ?_, ?_⟩
  · intro i
    refine ⟨0, Nat.zero_le _, fun j => ?_, ?_⟩
    · simp [init, allocateCache]
    · simp [init, allocateQueueArray, waysOf]
  · intro i e he
    simp [init, allocateQueueArray] at he
  · intro i j h
    simp [init, allocateCache] at h
  · intro i j
    left
    rfl
  · intro i j1 j2 h
    simp [init, allocateCache] at h
  · show 0 = offset_byte g *
      dirtyCount (allocateCache (sets g) (lines g) (fun _ => true)).blocks _ _
    have : dirtyCount (allocateCache (sets g) (lines g) (fun _ => true)).blocks
        (2 ^ g.set_size) g.ways = 0 := by
      unfold dirtyCount
      apply Finset.sum_eq_zero
      intro i _
      apply Finset.sum_eq_zero
      intro j _
      rfl
    rw [this, Nat.mul_zero]

theorem inv_queue {g : Geometry} {c : Nat → Nat → Block} {q : Nat → List LRU} {db : Nat}
    (hI : Inv g c q db) (i : Nat) (l : List LRU)
    (hperm : (waysOf l).Perm (waysOf (q i))) (hx : ∀ e ∈ l, e.x = i) :
    Inv g c (setQueue q i l) db := by
  refine ⟨?_, ?_, hI.rows, hI.dirty01, hI.distinct, hI.bytes⟩
  · intro i2
    obtain ⟨k, hk, hocc, hp⟩ := hI.fill i2
    refine ⟨k, hk, hocc, ?_⟩
    unfold setQueue
    by_cases h : i2 = i
    · rw [if_pos h]
      subst h
      exact hperm.trans hp
    · rw [if_neg h]
      exact hp
  · intro i2 e he
    unfold setQueue at he
    by_cases h : i2 = i
    · rw [if_pos h] at he
      rw [h]
      exact hx e he
    · rw [if_neg h] at he
      exact hI.qx i2 e he

theorem inv_dirty_set {g : Geometry} {c : Nat → Nat → Block} {q : Nat → List LRU} {db : Nat}
    (hI : Inv g c q db) (i j : Nat) (hi : i < 2 ^ g.set_size) (hj : j < g.ways)
    (hocc : (c i j).tag ≠ UINT64_MAX) (hd : (c i j).dirty = 0) :
    Inv g (setBlock c i j { dirty := 1, tag := (c i j).tag }) q (db + offset_byte g) := by
  refine ⟨?_, hI.qx, ?_, ?_, ?_, ?_⟩
  · intro i2
    obtain ⟨k, hk, ho, hp⟩ := hI.fill i2
    exact ⟨k, hk, fun j2 => by rw [setBlock_tag_same]; exact ho j2, hp⟩
  · intro i2 j2 h
    rw [setBlock_tag_same] at h
    exact hI.rows i2 j2 h
  · intro i2 j2
    by_cases h : i2 = i ∧ j2 = j
    · right
      rw [h.1, h.2, setBlock_same]
      exact ⟨rfl, hocc⟩
    · rw [setBlock_other _ _ _ _ _ _ h]
      exact hI.dirty01 i2 j2
  · intro i2 j1 j2 h1 h2
    rw [setBlock_tag_same] at h1 h2
    rw [setBlock_tag_same] at h2
    exact hI.distinct i2 j1 j2 h1 h2
  · have h := dirtyCount_setBlock c (2 ^ g.set_size) g.ways i j
      { dirty := 1, tag := (c i j).tag } hi hj
    have e1 : dirtyBit (c i j) = 0 := by simp [dirtyBit, hd]
    have e2 : dirtyBit { dirty := 1, tag := (c i j).tag } = 1 := by simp [dirtyBit]
    rw [e1, e2] at h
    have h2 : dirtyCount (setBlock c i j { dirty := 1, tag := (c i j).tag }) (2 ^ g.set_size)
        g.ways = dirtyCount c (2 ^ g.set_size) g.ways + 1 := by omega
    rw [hI.bytes, h2, Nat.mul_add, Nat.mul_one]

theorem inv_dirty_clear {g : Geometry} {c : Nat → Nat → Block} {q : Nat → List LRU} {db : Nat}
    (hI : Inv g c q db) (i j : Nat) (hi : i < 2 ^ g.set_size) (hj : j < g.ways)
    (hd : (c i j).dirty = 1) :
    offset_byte g ≤ db ∧
      Inv g (setBlock c i j { dirty := 0, tag := (c i j).tag }) q (db - offset_byte g) := by
  have h := dirtyCount_setBlock c (2 ^ g.set_size) g.ways i j
    { dirty := 0, tag := (c i j).tag } hi hj
  have e1 : dirtyBit (c i j) = 1 := by simp [dirtyBit, hd]
  have e2 : dirtyBit { dirty := 0, tag := (c i j).tag } = 0 := by simp [dirtyBit]
  rw [e1, e2] at h
  have h2 : dirtyCount c (2 ^ g.set_size) g.ways =
      dirtyCount (setBlock c i j { dirty := 0, tag := (c i j).tag }) (2 ^ g.set_size)
        g.ways + 1 := by omega
  have hb := hI.bytes
  rw [h2, Nat.mul_add, Nat.mul_one] at hb
  refine ⟨by omega, ?_, hI.qx, ?_, ?_, ?_, by omega⟩
  · intro i2
    obtain ⟨k, hk, ho, hp⟩ := hI.fill i2
    exact ⟨k, hk, fun j2 => by rw [setBlock_tag_same]; exact ho j2, hp⟩
  · intro i2 j2 h
    rw [setBlock_tag_same] at h
    exact hI.rows i2 j2 h
  · intro i2 j2
    by_cases h : i2 = i ∧ j2 = j
    · left
      rw [h.1, h.2, setBlock_same]
    · rw [setBlock_other _ _ _ _ _ _ h]
      exact hI.dirty01 i2 j2
  · intro i2 j1 j2 h1 h2
    rw [setBlock_tag_same] at h1 h2
    rw [setBlock_tag_same] at h2
    exact hI.distinct i2 j1 j2 h1 h2

theorem inv_retag {g : Geometry} {c : Nat → Nat → Block} {q : Nat → List LRU} {db : Nat}
    (hI : Inv g c q db) (i j tag : Nat) (hocc : (c i j).tag ≠ UINT64_MAX)
    (ht : tag ≠ UINT64_MAX) (hfresh : ∀ j2, (c i j2).tag ≠ tag) :
    Inv g (setBlock c i j { dirty := (c i j).dirty, tag := tag }) q db := by
  have htag : ∀ i2 j2, (setBlock c i j { dirty := (c i j).dirty, tag := tag } i2 j2).tag =
      if i2 = i ∧ j2 = j then tag else (c i2 j2).tag := by
    intro i2 j2
    unfold setBlock
    by_cases h : i2 = i ∧ j2 = j
    · rw [if_pos h, if_pos h]
    · rw [if_neg h, if_neg h]
  have hoc : ∀ i2 j2, (setBlock c i j { dirty := (c i j).dirty, tag := tag } i2 j2).tag ≠
      UINT64_MAX ↔ (c i2 j2).tag ≠ UINT64_MAX := by
    intro i2 j2
    rw [htag]
    by_cases h : i2 = i ∧ j2 = j
    · rw [if_pos h, h.1, h.2]
      exact ⟨fun _ => hocc, fun _ => ht⟩
    · rw [if_neg h]
  refine ⟨?_, hI.qx, ?_, ?_, ?_, ?_⟩
  · intro i2
    obtain ⟨k, hk, ho, hp⟩ := hI.fill i2
    exact ⟨k, hk, fun j2 => (hoc i2 j2).trans (ho j2), hp⟩
  · intro i2 j2 h
    exact hI.rows i2 j2 ((hoc i2 j2).mp h)
  · intro i2 j2
    rw [setBlock_dirty_same]
    rcases hI.dirty01 i2 j2 with h | h
    · exact Or.inl h
    · exact Or.inr ⟨h.1, (hoc i2 j2).mpr h.2⟩
  · intro i2 j1 j2 h1 h2
    have h1b := (hoc i2 j1).mp h1
    rw [htag, htag] at h2
    by_cases a1 : i2 = i ∧ j1 = j
    · by_cases a2 : i2 = i ∧ j2 = j
      · rw [a1.2, a2.2]
      · rw [if_pos a1, if_neg a2] at h2
        rw [a1.1] at h2
        exact absurd h2.symm (hfresh j2)
    · by_cases a2 : i2 = i ∧ j2 = j
      · rw [if_neg a1, if_pos a2] at h2
        rw [a2.1] at h2
        exact absurd h2 (hfresh j1)
      · rw [if_neg a1, if_neg a2] at h2
        exact hI.distinct i2 j1 j2 h1b h2
  · rw [hI.bytes, dirtyCount_congr c _ _ _ (fun i2 j2 => setBlock_dirty_same c i j tag i2 j2)]

theorem fill_level {c : Nat → Nat → Block} {i k j : Nat}
    (ho : ∀ j2, (c i j2).tag ≠ UINT64_MAX ↔ j2 < k)
    (he : (c i j).tag = UINT64_MAX) (hb : ∀ j2, j2 < j → (c i j2).tag ≠ UINT64_MAX) : k = j := by
  have h1 : ¬ j < k := fun h => (ho j).mpr h he
  have h2 : ¬ k < j := fun h => absurd ((ho k).mp (hb k h)) (Nat.lt_irrefl k)
  omega

theorem inv_fill {g : Geometry} {c : Nat → Nat → Block} {q : Nat → List LRU} {db : Nat}
    (hI : Inv g c q db) (i j tag : Nat) (hi : i < 2 ^ g.set_size) (hj : j < g.ways)
    (he : (c i j).tag = UINT64_MAX)
    (hb : ∀ j2, j2 < j → (c i j2).tag ≠ UINT64_MAX ∧ (c i j2).tag ≠ tag)
    (ht : tag ≠ UINT64_MAX) :
    Inv g (setBlock c i j { dirty := (c i j).dirty, tag := tag })
      (push q i { x := i, y := j }) db := by
  have htag : ∀ i2 j2, (setBlock c i j { dirty := (c i j).dirty, tag := tag } i2 j2).tag =
      if i2 = i ∧ j2 = j then tag else (c i2 j2).tag := by
    intro i2 j2
    unfold setBlock
    by_cases h : i2 = i ∧ j2 = j
    · rw [if_pos h, if_pos h]
    · rw [if_neg h, if_neg h]
  obtain ⟨k, hk, ho, hp⟩ := hI.fill i
  have hkj : k = j := fill_level ho he (fun j2 h2 => (hb j2 h2).1)
  subst hkj
  refine ⟨?_, ?_, ?_, ?_, ?_, ?_⟩
  · intro i2
    by_cases hi2 : i2 = i
    · subst hi2
      refine ⟨k + 1, hj, fun j2 => ?_, ?_⟩
      · rw [htag]
        by_cases hj2 : j2 = k
        · subst hj2
          simp [ht]
        · rw [if_neg (fun h => hj2 h.2), ho j2]
          omega
      · have : waysOf (push q i2 { x := i2, y := k } i2) = k :: waysOf (q i2) := by
          simp [push, setQueue, waysOf]
        rw [this, List.range_succ]
        exact (List.Perm.cons k hp).trans (List.perm_append_singleton k (List.range k)).symm
    · obtain ⟨k2, hk2, ho2, hp2⟩ := hI.fill i2
      refine ⟨k2, hk2, fun j2 => ?_, ?_⟩
      · rw [htag, if_neg (fun h => hi2 h.1)]
        exact ho2 j2
      · have : push q i { x := i, y := k } i2 = q i2 := by
          simp [push, setQueue, hi2]
        rw [this]
        exact hp2
  · intro i2 e hmem
    by_cases hi2 : i2 = i
    · subst hi2
      have : push q i2 { x := i2, y := k } i2 = { x := i2, y := k } :: q i2 := by
        simp [push, setQueue]
      rw [this] at hmem
      rcases List.mem_cons.mp hmem with h | h
      · rw [h]
      · exact hI.qx i2 e h
    · have : push q i { x := i, y := k } i2 = q i2 := by
        simp [push, setQueue, hi2]
      rw [this] at hmem
      exact hI.qx i2 e hmem
  · intro i2 j2 h
    rw [htag] at h
    by_cases a : i2 = i ∧ j2 = k
    · rw [a.1]
      exact hi
    · rw [if_neg a] at h
      exact hI.rows i2 j2 h
  · intro i2 j2
    rw [setBlock_dirty_same, htag]
    rcases hI.dirty01 i2 j2 with h | h
    · exact Or.inl h
    · right
      refine ⟨h.1, ?_⟩
      by_cases a : i2 = i ∧ j2 = k
      · rw [if_pos a]
        exact ht
      · rw [if_neg a]
        exact h.2
  · intro i2 j1 j2 h1 h2
    rw [htag] at h1
    rw [htag, htag] at h2
    by_cases hi2 : i2 = i
    · subst hi2
      by_cases a1 : j1 = k
      · by_cases a2 : j2 = k
        · rw [a1, a2]
        · rw [if_pos ⟨rfl, a1⟩, if_neg (fun h => a2 h.2)] at h2
          have hocc : (c i2 j2).tag ≠ UINT64_MAX := by
            rw [← h2]
            exact ht
          exact absurd h2.symm (hb j2 ((ho j2).mp hocc)).2
      · rw [if_neg (fun h => a1 h.2)] at h1 h2
        by_cases a2 : j2 = k
        · rw [if_pos ⟨rfl, a2⟩] at h2
          exact absurd h2 (hb j1 ((ho j1).mp h1)).2
        · rw [if_neg (fun h => a2 h.2)] at h2
          exact hI.distinct i2 j1 j2 h1 h2
    · rw [if_neg (fun h => hi2 h.1)] at h1 h2
      rw [if_neg (fun h => hi2 h.1)] at h2
      exact hI.distinct i2 j1 j2 h1 h2
  · rw [hI.bytes, dirtyCount_congr c _ _ _ (fun i2 j2 => setBlock_dirty_same c i k tag i2 j2)]

theorem unoccupied_clean {g : Geometry} {c : Nat → Nat → Block} {q : Nat → List LRU}
    {db : Nat} (hI : Inv g c q db) (i j : Nat) (he : (c i j).tag = UINT64_MAX) :
    (c i j).dirty = 0 := by
  rcases hI.dirty01 i j with h | h
  · exact h
  · exact absurd he h.2

/-! ## The three paths of `operation` -/

theorem miss_step {g : Geometry} (hv : Valid g) {st : Sim} (hI : SimInv g st)
    (opt : Char) (addr w : Nat) (hp : path g st addr = Scan.miss w) :
    operation g st opt addr =
        Except.ok (missBody g st opt (setIndex g addr) (curTag g addr) w) ∧
      SimInv g (missBody g st opt (setIndex g addr) (curTag g addr) w) := by
  unfold path at hp
  obtain ⟨_, hw, he, hb⟩ := scan_miss hp
  have hset := setIndex_lt g hv.2 addr
  have ht := curTag_ne_max g hv.2 addr
  have hfill := inv_fill hI (setIndex g addr) w (curTag g addr) hset (by omega) he
    (fun j2 h2 => hb j2 (Nat.zero_le _) h2) ht
  constructor
  · unfold operation
    rw [hp]
  · unfold SimInv missBody
    by_cases hS : opt = 'S'
    · simp only [if_pos hS]
      have h2 := inv_dirty_set hfill (setIndex g addr) w hset (by omega)
        (by rw [setBlock_same]; exact ht)
        (by rw [setBlock_same]; exact unoccupied_clean hI _ _ he)
      rw [setBlock_setBlock, setBlock_same] at h2
      exact h2
    · simp only [if_neg hS]
      exact hfill

theorem queue_length {g : Geometry} {c : Nat → Nat → Block} {q : Nat → List LRU} {db : Nat}
    (hI : Inv g c q db) (i k : Nat) (ho : ∀ j, (c i j).tag ≠ UINT64_MAX ↔ j < k) :
    (q i).length = k ∧ (waysOf (q i)).Perm (List.range k) := by
  obtain ⟨k2, _, ho2, hp2⟩ := hI.fill i
  have hk : k2 = k := by
    have h1 : ¬ k < k2 := fun h => absurd ((ho k).mp ((ho2 k).mpr h)) (Nat.lt_irrefl k)
    have h2 : ¬ k2 < k := fun h => absurd ((ho2 k2).mp ((ho k2).mpr h)) (Nat.lt_irrefl k2)
    omega
  subst hk
  refine ⟨?_, hp2⟩
  have := hp2.length_eq
  simpa [waysOf] using this

theorem rotate_perm (top : LRU) (t : List LRU) :
    (waysOf ((popLast top t).1 :: (popLast top t).2)).Perm (waysOf (top :: t)) :=
  (popLast_perm top t).map LRU.y

theorem hit_step {g : Geometry} (hv : Valid g) {st : Sim} (hI : SimInv g st)
    (opt : Char) (addr w : Nat) (hp : path g st addr = Scan.hit w) :
    ∃ top t st2, st.queues (setIndex g addr) = top :: t ∧
      operation g st opt addr = Except.ok st2 ∧
      st2.cache = (if (st.cache (setIndex g addr) w).dirty = 0 ∧ opt = 'S' then
          setBlock st.cache (setIndex g addr) w
            { dirty := 1, tag := (st.cache (setIndex g addr) w).tag }
        else st.cache) ∧
      st2.queues = (if top.y ≠ w then
          setQueue st.queues (setIndex g addr) ((popLast top t).1 :: (popLast top t).2)
        else st.queues) ∧
      st2.res = { st.res with
        dirty_bytes := (if (st.cache (setIndex g addr) w).dirty = 0 ∧ opt = 'S' then
          st.res.dirty_bytes + offset_byte g else st.res.dirty_bytes)
        hits := st.res.hits + 1 } ∧
      SimInv g st2 := by
  unfold path at hp
  obtain ⟨_, hw, hocc, _, _⟩ := scan_hit hp
  have hset := setIndex_lt g hv.2 addr
  obtain ⟨k, hk, ho, hperm⟩ := hI.fill (setIndex g addr)
  have hwk : w < k := (ho w).mp hocc
  cases hq : st.queues (setIndex g addr) with
  | nil =>
    rw [hq] at hperm
    have := hperm.length_eq
    simp [waysOf] at this
    omega
  | cons top t =>
    have hQ : Inv g st.cache (if top.y ≠ w then
          setQueue st.queues (setIndex g addr) ((popLast top t).1 :: (popLast top t).2)
        else st.queues) st.res.dirty_bytes := by
      by_cases h1 : top.y ≠ w
      · rw [if_pos h1]
        apply inv_queue hI
        · rw [hq]
          exact rotate_perm top t
        · intro e he
          exact hI.qx _ e (by rw [hq]; exact popLast_mem top t e he)
      · rw [if_neg h1]
        exact hI
    refine ⟨top, t,
      ⟨(if (st.cache (setIndex g addr) w).dirty = 0 ∧ opt = 'S' then
          setBlock st.cache (setIndex g addr) w
            { dirty := 1, tag := (st.cache (setIndex g addr) w).tag }
        else st.cache),
       (if top.y ≠ w then
          setQueue st.queues (setIndex g addr) ((popLast top t).1 :: (popLast top t).2)
        else st.queues),
       { st.res with
        dirty_bytes := (if (st.cache (setIndex g addr) w).dirty = 0 ∧ opt = 'S' then
          st.res.dirty_bytes + offset_byte g else st.res.dirty_bytes)
        hits := st.res.hits + 1 }⟩, rfl, ?_, rfl, rfl, rfl, ?_⟩
    · unfold operation
      rw [hp]
      unfold hitBody
      rw [hq]
      by_cases h1 : top.y ≠ w
      · by_cases h2 : (st.cache (setIndex g addr) w).dirty = 0 ∧ opt = 'S'
        · simp only [pop, hq, push_setQueue, if_pos h1, if_pos h2]
        · simp only [pop, hq, push_setQueue, if_pos h1, if_neg h2]
      · by_cases h2 : (st.cache (setIndex g addr) w).dirty = 0 ∧ opt = 'S'
        · simp only [if_neg h1, if_pos h2]
        · simp only [if_neg h1, if_neg h2]
    · unfold SimInv
      by_cases h2 : (st.cache (setIndex g addr) w).dirty = 0 ∧ opt = 'S'
      · simp only [if_pos h2]
        exact inv_dirty_set hQ (setIndex g addr) w hset (by omega) hocc h2.1
      · simp only [if_neg h2]
        exact hQ

theorem evict_step {g : Geometry} (hv : Valid g) {st : Sim} (hI : SimInv g st)
    (opt : Char) (addr : Nat) (hp : path g st addr = Scan.full) :
    ∃ top t st2, st.queues (setIndex g addr) = top :: t ∧
      (top :: t).length = g.ways ∧
      (popLast top t).1.x = setIndex g addr ∧
      (popLast top t).1.y < g.ways ∧
      operation g st opt addr = Except.ok st2 ∧
      st2.cache = setBlock st.cache (setIndex g addr) (popLast top t).1.y
        { dirty :=
            (if (st.cache (setIndex g addr) (popLast top t).1.y).dirty = 1 then
              (if opt = 'L' then 0 else (st.cache (setIndex g addr) (popLast top t).1.y).dirty)
             else
              (if opt = 'S' then 1 else (st.cache (setIndex g addr) (popLast top t).1.y).dirty))
          tag := curTag g addr } ∧
      st2.queues =
        setQueue st.queues (setIndex g addr) ((popLast top t).1 :: (popLast top t).2) ∧
      st2.res = { st.res with
        dirty_bytes :=
          (if (st.cache (setIndex g addr) (popLast top t).1.y).dirty = 1 then
            (if opt = 'L' then dec_dirty_bytes st.res.dirty_bytes (offset_byte g)
             else st.res.dirty_bytes)
           else (if opt = 'S' then st.res.dirty_bytes + offset_byte g else st.res.dirty_bytes))
        dirty_evictions :=
          (if (st.cache (setIndex g addr) (popLast top t).1.y).dirty = 1 then
            st.res.dirty_evictions + offset_byte g
           else st.res.dirty_evictions)
        evictions := st.res.evictions + 1
        misses := st.res.misses + 1 } ∧
      ((st.cache (setIndex g addr) (popLast top t).1.y).dirty = 1 →
        offset_byte g ≤ st.res.dirty_bytes) ∧
      SimInv g st2 := by
  unfold path at hp
  have hfull := scan_full hp
  have hset := setIndex_lt g hv.2 addr
  have ht := curTag_ne_max g hv.2 addr
  obtain ⟨k, hk, ho, hperm⟩ := hI.fill (setIndex g addr)
  have hkE : k = g.ways := by
    have h1 : ¬ k < g.ways := fun h =>
      absurd ((ho k).mp (hfull k (Nat.zero_le _) (by omega)).1) (Nat.lt_irrefl k)
    omega
  subst hkE
  have hfresh : ∀ j2, (st.cache (setIndex g addr) j2).tag ≠ curTag g addr := by
    intro j2
    by_cases hj2 : j2 < g.ways
    · exact (hfull j2 (Nat.zero_le _) (by omega)).2
    · intro h
      have : (st.cache (setIndex g addr) j2).tag ≠ UINT64_MAX := by
        rw [h]
        exact ht
      exact hj2 ((ho j2).mp this)
  cases hq : st.queues (setIndex g addr) with
  | nil =>
    rw [hq] at hperm
    have := hperm.length_eq
    simp [waysOf] at this
    have := hv.1
    omega
  | cons top t =>
    have hlen := (queue_length hI (setIndex g addr) g.ways ho).1
    rw [hq] at hlen
    have hmem : (popLast top t).1 ∈ st.queues (setIndex g addr) := by
      rw [hq]
      exact popLast_mem top t _ (List.mem_cons_self _ _)
    have hx : (popLast top t).1.x = setIndex g addr := hI.qx _ _ hmem
    have hy : (popLast top t).1.y < g.ways := by
      have : (popLast top t).1.y ∈ waysOf (st.queues (setIndex g addr)) :=
        List.mem_map_of_mem LRU.y hmem
      exact List.mem_range.mp (hperm.mem_iff.mp this)
    have hocc : (st.cache (setIndex g addr) (popLast top t).1.y).tag ≠ UINT64_MAX :=
      (ho _).mpr hy
    have hQ : Inv g st.cache
        (setQueue st.queues (setIndex g addr) ((popLast top t).1 :: (popLast top t).2))
        st.res.dirty_bytes := by
      apply inv_queue hI
      · rw [hq]
        exact rotate_perm top t
      · intro e he
        exact hI.qx _ e (by rw [hq]; exact popLast_mem top t e he)
    have hsub : (st.cache (setIndex g addr) (popLast top t).1.y).dirty = 1 →
        offset_byte g ≤ st.res.dirty_bytes := fun hd =>
      (inv_dirty_clear hQ (setIndex g addr) _ hset hy hd).1
    refine ⟨top, t,
      ⟨setBlock st.cache (setIndex g addr) (popLast top t).1.y
        { dirty :=
            (if (st.cache (setIndex g addr) (popLast top t).1.y).dirty = 1 then
              (if opt = 'L' then 0 else (st.cache (setIndex g addr) (popLast top t).1.y).dirty)
             else
              (if opt = 'S' then 1 else (st.cache (setIndex g addr) (popLast top t).1.y).dirty))
          tag := curTag g addr },
       setQueue st.queues (setIndex g addr) ((popLast top t).1 :: (popLast top t).2),
       { st.res with
        dirty_bytes :=
          (if (st.cache (setIndex g addr) (popLast top t).1.y).dirty = 1 then
            (if opt = 'L' then dec_dirty_bytes st.res.dirty_bytes (offset_byte g)
             else st.res.dirty_bytes)
           else (if opt = 'S' then st.res.dirty_bytes + offset_byte g else st.res.dirty_bytes))
        dirty_evictions :=
          (if (st.cache (setIndex g addr) (popLast top t).1.y).dirty = 1 then
            st.res.dirty_evictions + offset_byte g
           else st.res.dirty_evictions)
        evictions := st.res.evictions + 1
        misses := st.res.misses + 1 }⟩,
      rfl, hlen, hx, hy, ?_, rfl, rfl, rfl, hsub, ?_⟩
    · unfold operation
      rw [hp]
      unfold evictBody
      simp only [pop, hq, push_setQueue, hx]
    · unfold SimInv
      simp only
      rcases hI.dirty01 (setIndex g addr) (popLast top t).1.y with hd | hd
      · have hd1 : ¬ (st.cache (setIndex g addr) (popLast top t).1.y).dirty = 1 := by
          rw [hd]
          decide
        simp only [if_neg hd1]
        by_cases hS : opt = 'S'
        · simp only [if_pos hS]
          have h1 := inv_dirty_set hQ (setIndex g addr) _ hset hy hocc hd
          have h2 := inv_retag h1 (setIndex g addr) (popLast top t).1.y (curTag g addr)
            (by rw [setBlock_tag_same]; exact hocc) ht
            (fun j2 => by rw [setBlock_tag_same]; exact hfresh j2)
          rw [setBlock_setBlock, setBlock_same] at h2
          exact h2
        · simp only [if_neg hS]
          exact inv_retag hQ (setIndex g addr) (popLast top t).1.y (curTag g addr) hocc ht hfresh
      · simp only [if_pos hd.1]
        by_cases hL : opt = 'L'
        · simp only [if_pos hL]
          obtain ⟨hle, h1⟩ := inv_dirty_clear hQ (setIndex g addr) _ hset hy hd.1
          have h2 := inv_retag h1 (setIndex g addr) (popLast top t).1.y (curTag g addr)
            (by rw [setBlock_tag_same]; exact hocc) ht
            (fun j2 => by rw [setBlock_tag_same]; exact hfresh j2)
          rw [setBlock_setBlock, setBlock_same] at h2
          have hdec : dec_dirty_bytes st.res.dirty_bytes (offset_byte g) =
              st.res.dirty_bytes - offset_byte g := by
            unfold dec_dirty_bytes
            rw [if_pos hle]
          rw [hdec]
          exact h2
        · simp only [if_neg hL]
          exact inv_retag hQ (setIndex g addr) (popLast top t).1.y (curTag g addr) hocc ht hfresh

/-! ## Every run succeeds and keeps the invariant -/

theorem step_inv {g : Geometry} (hv : Valid g) {st : Sim} (hI : SimInv g st)
    (opt : Char) (addr : Nat) :
    ∃ st2, operation g st opt addr = Except.ok st2 ∧ SimInv g st2 := by
  cases hp : path g st addr with
  | miss w => exact ⟨_, miss_step hv hI opt addr w hp⟩
  | hit w =>
    obtain ⟨_, _, st2, _, h1, _, _, _, h2⟩ := hit_step hv hI opt addr w hp
    exact ⟨st2, h1, h2⟩
  | full =>
    obtain ⟨_, _, st2, _, _, _, _, h1, _, _, _, _, h2⟩ := evict_step hv hI opt addr hp
    exact ⟨st2, h1, h2⟩

theorem process_inv {g : Geometry} (hv : Valid g) (tr : List FileLine) :
    ∀ st, SimInv g st → ∃ st2, process_trace_file g st tr = Except.ok st2 ∧ SimInv g st2 := by
  induction tr with
  | nil => exact fun st hI => ⟨st, rfl, hI⟩
  | cons l ls ih =>
    intro st hI
    obtain ⟨st1, h1, hI1⟩ := step_inv hv hI l.opt l.addr
    obtain ⟨st2, h2, hI2⟩ := ih st1 hI1
    refine ⟨st2, ?_, hI2⟩
    show (match operation g st l.opt l.addr with
      | Except.error e => Except.error e
      | Except.ok s => process_trace_file g s ls) = _
    rw [h1]
    exact h2

theorem run_inv {g : Geometry} (hv : Valid g) (tr : List FileLine) :
    ∃ st, run g tr = Except.ok st ∧ SimInv g st :=
  process_inv hv tr (init g) (inv_init g)

theorem reachable_inv {g : Geometry} (hv : Valid g) {st : Sim} (hr : Reachable g st) :
    SimInv g st := by
  obtain ⟨tr, htr⟩ := hr
  obtain ⟨st2, h2, hI⟩ := run_inv hv tr
  rw [htr] at h2
  injection h2 with h2
  rw [h2]
  exact hI

theorem victim_cons (top : LRU) (t : List LRU) :
    victim (top :: t) = some (popLast top t).1 := rfl

theorem getLast?_cons_popLast (top : LRU) (t : List LRU) :
    (top :: t).getLast? = some (popLast top t).1 := by
  rw [List.getLast?_eq_getLast _ (List.cons_ne_nil top t), popLast_fst]

/-! ## The claims -/

/-- C3. Recency/occupancy invariant: for every valid geometry, every trace and
every initial segment of it (its first `n` records), the run succeeds and
in every set `i` the way indices held in the recency list are pairwise
distinct and are exactly the indices `j` of the occupied slots (tag
different from `UINT64_MAX`) of that set. -/
theorem recency_matches_occupancy (g : Geometry) (hv : Valid g) (tr : List FileLine)
    (n : Nat) :
    ∃ st, run g (tr.take n) = Except.ok st ∧
      ∀ i, (waysOf (st.queues i)).Nodup ∧
        ∀ j, j ∈ waysOf (st.queues i) ↔ (st.cache i j).tag ≠ UINT64_MAX := by
  obtain ⟨st, hrun, hI⟩ := run_inv hv (tr.take n)
  refine ⟨st, hrun, fun i => ?_⟩
  obtain ⟨k, _, ho, hp⟩ := hI.fill i
  refine ⟨hp.nodup_iff.mpr (List.nodup_range k), fun j => ?_⟩
  rw [hp.mem_iff, List.mem_range, ho j]

/-- C4. Accounting of dirty_bytes: for a valid geometry with `b <= 30`, after
any initial segment of any trace the run succeeds and `dirty_bytes` equals
`2^b` times the number of dirty slots of the whole grid (rows below `2^s`,
any number of columns that covers the `E` ways, such as the `2^E` allocated
ones); and whenever an access would take the eviction path with a dirty
victim, `dirty_bytes` is at least one block, so the subtraction
`dirty_bytes -= offset_byte` does not wrap. -/
theorem dirty_bytes_accounting (g : Geometry) (hv : Valid g) (hb : g.offset_size ≤ 30)
    (tr : List FileLine) (n : Nat) :
    ∃ st, run g (tr.take n) = Except.ok st ∧
      (∀ cols, g.ways ≤ cols →
        st.res.dirty_bytes = 2 ^ g.offset_size * dirtyCount st.cache (2 ^ g.set_size) cols) ∧
      (∀ addr e, path g st addr = Scan.full →
        victim (st.queues (setIndex g addr)) = some e → (st.cache e.x e.y).dirty = 1 →
        offset_byte g = 2 ^ g.offset_size ∧ 2 ^ g.offset_size ≤ st.res.dirty_bytes ∧
          dec_dirty_bytes st.res.dirty_bytes (offset_byte g) =
            st.res.dirty_bytes - 2 ^ g.offset_size) := by
  obtain ⟨st, hrun, hI⟩ := run_inv hv (tr.take n)
  have hob := offset_byte_eq g hb
  refine ⟨st, hrun, fun cols hc => ?_, fun addr e hp hvic hd => ?_⟩
  · rw [dirtyCount_cols st.cache _ g.ways cols hc, ← hob]
    · exact hI.bytes
    · intro i j hj
      rcases hI.dirty01 i j with h | h
      · exact h
      · obtain ⟨k, hk, ho, _⟩ := hI.fill i
        have := (ho j).mp h.2
        omega
  · obtain ⟨top, t, _, hq, _, hx, _, _, _, _, _, hsub, _⟩ := evict_step hv hI 'L' addr hp
    rw [hq, victim_cons] at hvic
    injection hvic with hvic
    subst hvic
    rw [hx] at hd
    have hle := hsub hd
    refine ⟨hob, by rw [← hob]; exact hle, ?_⟩
    unfold dec_dirty_bytes
    rw [if_pos hle, hob]

/-- C7. Set-index decoding: for every geometry with `s + b < 64` and every
address, the mask is `(2^s * 2^b - 1) - (2^b - 1)`, the set index computed by
operation, `(addr & set_mask) >> b`, equals `(addr >> b) mod 2^s`, and it is
below `2^s`. -/
theorem set_index_decoding (g : Geometry) (h : g.set_size + g.offset_size < 64)
    (addr : Nat) :
    set_mask g = (2 ^ g.set_size * 2 ^ g.offset_size - 1) - (2 ^ g.offset_size - 1) ∧
      setIndex g addr = (addr &&& set_mask g) >>> g.offset_size ∧
      setIndex g addr = (addr >>> g.offset_size) % 2 ^ g.set_size ∧
      setIndex g addr < 2 ^ g.set_size := by
  refine ⟨?_, rfl, setIndex_eq g h addr, setIndex_lt g h addr⟩
  rw [set_mask_eq g h, Nat.shiftLeft_eq, Nat.sub_mul]
  have hpos : 0 < 2 ^ g.offset_size := Nat.two_pow_pos _
  have hle : 2 ^ g.offset_size ≤ 2 ^ g.set_size * 2 ^ g.offset_size :=
    Nat.le_mul_of_pos_left _ (Nat.two_pow_pos _)
  omega

/-- Eviction-miss dirty accounting, in the amount the code adds: in every reachable state of a valid
geometry, a Load or Store that takes the eviction-miss path succeeds; with
`w` the victim popped from the recency list of its set, afterwards (1) the
dirty flag of `w` is 1 for a Store and 0 for a Load, (2) dirty_evictions has
grown by one block if `w` was dirty before and is unchanged otherwise,
(3) dirty_bytes has changed by (new flag - old flag) blocks, (4) misses and
evictions have grown by one and hits is unchanged.  A block is here
`offset_byte`, the amount the code adds; it is `block_size` only for
`b <= 30` (see `eviction_dirty_accounting_upto_30`). -/
theorem eviction_dirty_accounting (g : Geometry) (hv : Valid g) (st : Sim)
    (hr : Reachable g st) (l : FileLine) (hl : l.opt = 'S' ∨ l.opt = 'L')
    (hp : path g st l.addr = Scan.full) :
    ∃ w st2, victim (st.queues (setIndex g l.addr)) = some w ∧
      w.x = setIndex g l.addr ∧ w.y < g.ways ∧
      operation g st l.opt l.addr = Except.ok st2 ∧
      (st2.cache w.x w.y).dirty = (if l.opt = 'S' then 1 else 0) ∧
      st2.res.dirty_evictions = st.res.dirty_evictions +
        (if (st.cache w.x w.y).dirty ≠ 0 then offset_byte g else 0) ∧
      (st2.res.dirty_bytes : Int) = (st.res.dirty_bytes : Int) +
        ((st2.cache w.x w.y).dirty - (st.cache w.x w.y).dirty) * (offset_byte g : Int) ∧
      st2.res.misses = st.res.misses + 1 ∧
      st2.res.evictions = st.res.evictions + 1 ∧
      st2.res.hits = st.res.hits := by
  have hI := reachable_inv hv hr
  obtain ⟨top, t, st2, hq, _, hx, hy, hop, hc, _, hres, hsub, _⟩ :=
    evict_step hv hI l.opt l.addr hp
  have hSL : ('S' : Char) ≠ 'L' := by decide
  have hLS : ('L' : Char) ≠ 'S' := by decide
  refine ⟨(popLast top t).1, st2, by rw [hq, victim_cons], hx, hy, hop, ?_⟩
  rw [hc, hres, hx, setBlock_same]
  rcases hI.dirty01 (setIndex g l.addr) (popLast top t).1.y with hd | ⟨hd, _⟩
  · rcases hl with ho | ho
    · simp [hd, ho]
    · simp [hd, ho]
  · have hle := hsub hd
    rcases hl with ho | ho
    · simp [hd, ho]
    · simp only [hd, ho, dec_dirty_bytes, if_pos hle]
      simp
      omega

/-- Hit-path effect, in the amount the code adds (`offset_byte`, which is
`block_size` only for `b <= 30`, see `hit_effect_upto_30`): in every
reachable state of a valid geometry, an
access that hits way `w` of its set succeeds; hits grows by one; misses,
evictions and dirty_evictions are unchanged; no slot changes its tag; if the
access is a Store and `w` was clean then `w` becomes dirty, no other flag
changes and dirty_bytes grows by one block (`offset_byte`); otherwise no
dirty flag changes and dirty_bytes is unchanged. -/
theorem hit_effect (g : Geometry) (hv : Valid g) (st : Sim) (hr : Reachable g st)
    (opt : Char) (addr w : Nat) (hp : path g st addr = Scan.hit w) :
    ∃ st2, operation g st opt addr = Except.ok st2 ∧
      st2.res.hits = st.res.hits + 1 ∧
      st2.res.misses = st.res.misses ∧
      st2.res.evictions = st.res.evictions ∧
      st2.res.dirty_evictions = st.res.dirty_evictions ∧
      (∀ i j, (st2.cache i j).tag = (st.cache i j).tag) ∧
      (opt = 'S' ∧ (st.cache (setIndex g addr) w).dirty = 0 →
        (st2.cache (setIndex g addr) w).dirty = 1 ∧
        (∀ i j, ¬ (i = setIndex g addr ∧ j = w) → (st2.cache i j).dirty = (st.cache i j).dirty) ∧
        st2.res.dirty_bytes = st.res.dirty_bytes + offset_byte g) ∧
      (¬ (opt = 'S' ∧ (st.cache (setIndex g addr) w).dirty = 0) →
        (∀ i j, (st2.cache i j).dirty = (st.cache i j).dirty) ∧
        st2.res.dirty_bytes = st.res.dirty_bytes) := by
  have hI := reachable_inv hv hr
  obtain ⟨top, t, st2, _, hop, hc, _, hres, _⟩ := hit_step hv hI opt addr w hp
  refine ⟨st2, hop, by rw [hres], by rw [hres], by rw [hres], by rw [hres], ?_, ?_, ?_⟩
  · intro i j
    rw [hc]
    by_cases h : (st.cache (setIndex g addr) w).dirty = 0 ∧ opt = 'S'
    · rw [if_pos h, setBlock_tag_same]
    · rw [if_neg h]
  · intro h
    have h2 : (st.cache (setIndex g addr) w).dirty = 0 ∧ opt = 'S' := ⟨h.2, h.1⟩
    rw [hc, hres]
    simp only [if_pos h2]
    refine ⟨by rw [setBlock_same], fun i j hij => ?_, by trivial⟩
    rw [setBlock_other _ _ _ _ _ _ hij]
  · intro h
    have h2 : ¬ ((st.cache (setIndex g addr) w).dirty = 0 ∧ opt = 'S') := fun a => h ⟨a.2, a.1⟩
    rw [hc, hres]
    simp only [if_neg h2]
    simp

/-- Clean-miss effect, in the amount the code adds (`offset_byte`, which is
`block_size` only for `b <= 30`, see `clean_miss_effect_upto_30`): in every
reachable state of a valid geometry, take
an access whose tag is held by no occupied way of its set, and let `w` be
the lowest-indexed empty way of that set.  The access succeeds; the tag is
installed in `w` and no other slot changes; the dirty flag of `w` becomes 1
for a Store and 0 otherwise; `w` is put at the front of the recency list of
the set and the other lists are unchanged; misses grows by one; dirty_bytes
grows by one block (`offset_byte`) exactly for a Store; hits, evictions and
dirty_evictions are unchanged. -/
theorem clean_miss_effect (g : Geometry) (hv : Valid g) (st : Sim) (hr : Reachable g st)
    (opt : Char) (addr w : Nat)
    (hnr : ∀ j, j < g.ways → (st.cache (setIndex g addr) j).tag ≠ UINT64_MAX →
      (st.cache (setIndex g addr) j).tag ≠ curTag g addr)
    (hw : w < g.ways) (hempty : (st.cache (setIndex g addr) w).tag = UINT64_MAX)
    (hlow : ∀ j, j < w → (st.cache (setIndex g addr) j).tag ≠ UINT64_MAX) :
    ∃ st2, operation g st opt addr = Except.ok st2 ∧
      path g st addr = Scan.miss w ∧
      (st2.cache (setIndex g addr) w).tag = curTag g addr ∧
      (∀ i j, ¬ (i = setIndex g addr ∧ j = w) → st2.cache i j = st.cache i j) ∧
      (st2.cache (setIndex g addr) w).dirty = (if opt = 'S' then 1 else 0) ∧
      st2.queues (setIndex g addr) =
        { x := setIndex g addr, y := w } :: st.queues (setIndex g addr) ∧
      (∀ i, i ≠ setIndex g addr → st2.queues i = st.queues i) ∧
      st2.res.misses = st.res.misses + 1 ∧
      st2.res.dirty_bytes = st.res.dirty_bytes + (if opt = 'S' then offset_byte g else 0) ∧
      st2.res.hits = st.res.hits ∧
      st2.res.evictions = st.res.evictions ∧
      st2.res.dirty_evictions = st.res.dirty_evictions := by
  have hI := reachable_inv hv hr
  have hp : path g st addr = Scan.miss w := by
    unfold path
    exact scan_miss_of (Nat.zero_le _) (by omega) hempty
      (fun j _ hj => ⟨hlow j hj, hnr j (by omega) (hlow j hj)⟩)
  obtain ⟨hop, _⟩ := miss_step hv hI opt addr w hp
  have hclean := unoccupied_clean hI _ _ hempty
  refine ⟨_, hop, hp, ?_⟩
  unfold missBody
  by_cases hS : opt = 'S'
  · simp only [if_pos hS]
    refine ⟨by rw [setBlock_same], fun i j hij => setBlock_other _ _ _ _ _ _ hij,
      by rw [setBlock_same], by simp [push, setQueue], fun i hi => by simp [push, setQueue, hi],
      ?_⟩
    simp
  · simp only [if_neg hS]
    refine ⟨by rw [setBlock_same], fun i j hij => setBlock_other _ _ _ _ _ _ hij,
      by rw [setBlock_same]; exact hclean, by simp [push, setQueue],
      fun i hi => by simp [push, setQueue, hi], ?_⟩
    simp

/-- C10. Eviction-step recency effect: in every reachable state of a valid
geometry, an access that takes the eviction-miss path succeeds; the victim
`v`, the slot whose tag is replaced, is the last element of the recency
list of the set; afterwards the list is `v` followed by the former list
without its last element, no other list changes, and the length is
unchanged and equal to `E`. -/
theorem eviction_recency_effect (g : Geometry) (hv : Valid g) (st : Sim)
    (hr : Reachable g st) (opt : Char) (addr : Nat) (hp : path g st addr = Scan.full) :
    ∃ v st2, operation g st opt addr = Except.ok st2 ∧
      victim (st.queues (setIndex g addr)) = some v ∧
      (st.queues (setIndex g addr)).getLast? = some v ∧
      v.x = setIndex g addr ∧
      (st2.cache v.x v.y).tag = curTag g addr ∧
      (∀ i j, ¬ (i = v.x ∧ j = v.y) → st2.cache i j = st.cache i j) ∧
      st2.queues (setIndex g addr) = v :: (st.queues (setIndex g addr)).dropLast ∧
      (∀ i, i ≠ setIndex g addr → st2.queues i = st.queues i) ∧
      (st2.queues (setIndex g addr)).length = (st.queues (setIndex g addr)).length ∧
      (st.queues (setIndex g addr)).length = g.ways := by
  have hI := reachable_inv hv hr
  obtain ⟨top, t, st2, hq, hlen, hx, _, hop, hc, hqs, _, _, _⟩ :=
    evict_step hv hI opt addr hp
  refine ⟨(popLast top t).1, st2, hop, by rw [hq, victim_cons],
    by rw [hq, getLast?_cons_popLast], hx, ?_, ?_, ?_, ?_, ?_, by rw [hq]; exact hlen⟩
  · rw [hc, hx, setBlock_same]
  · intro i j hij
    rw [hc, hx] at *
    exact setBlock_other _ _ _ _ _ _ hij
  · rw [hqs, hq, ← popLast_snd]
    simp [setQueue]
  · intro i hi
    rw [hqs]
    simp [setQueue, hi]
  · rw [hqs, hq]
    simp only [setQueue, if_true]
    exact popLast_length top t

/-! ## The claims at concrete inputs -/

/-- C3 at `s = 0, b = 0, E = 2` and the first two records of Load(0), Load(1), Load(2). -/
theorem recency_matches_occupancy_witness :
    Valid geom2 ∧
      ∃ st, run geom2 ([L 0, L 1, L 2].take 2) = Except.ok st ∧
        ∀ i, (waysOf (st.queues i)).Nodup ∧
          ∀ j, j ∈ waysOf (st.queues i) ↔ (st.cache i j).tag ≠ UINT64_MAX :=
  ⟨by decide, recency_matches_occupancy geom2 (by decide) [L 0, L 1, L 2] 2⟩

/-- C4 at `s = 0, b = 0, E = 1` after the first record of Store(0), Load(1). -/
theorem dirty_bytes_accounting_witness :
    Valid geom1 ∧ geom1.offset_size ≤ 30 ∧
      ∃ st, run geom1 ([S 0, L 1].take 1) = Except.ok st ∧
        (∀ cols, geom1.ways ≤ cols →
          st.res.dirty_bytes =
            2 ^ geom1.offset_size * dirtyCount st.cache (2 ^ geom1.set_size) cols) ∧
        (∀ addr e, path geom1 st addr = Scan.full →
          victim (st.queues (setIndex geom1 addr)) = some e → (st.cache e.x e.y).dirty = 1 →
          offset_byte geom1 = 2 ^ geom1.offset_size ∧
            2 ^ geom1.offset_size ≤ st.res.dirty_bytes ∧
            dec_dirty_bytes st.res.dirty_bytes (offset_byte geom1) =
              st.res.dirty_bytes - 2 ^ geom1.offset_size) :=
  ⟨by decide, by decide, dirty_bytes_accounting geom1 (by decide) (by decide) [S 0, L 1] 1⟩

/-- C7 at `s = 2, b = 2` and address 45 (binary 101101): the set index is 3. -/
theorem set_index_decoding_witness :
    geom4.set_size + geom4.offset_size < 64 ∧ setIndex geom4 45 = 3 ∧
      (set_mask geom4 =
          (2 ^ geom4.set_size * 2 ^ geom4.offset_size - 1) - (2 ^ geom4.offset_size - 1) ∧
        setIndex geom4 45 = (45 &&& set_mask geom4) >>> geom4.offset_size ∧
        setIndex geom4 45 = (45 >>> geom4.offset_size) % 2 ^ geom4.set_size ∧
        setIndex geom4 45 < 2 ^ geom4.set_size) :=
  ⟨by decide, by decide, set_index_decoding geom4 (by decide) 45⟩

/-- Eviction accounting at `s = 0, b = 0, E = 1`: after Store(0), the access Load(1) evicts; the
run Store(0), Load(1) ends with hits=0, misses=2, evictions=1, dirty_bytes=0,
dirty_evictions=1. -/
theorem eviction_dirty_accounting_witness :
    (Valid geom1 ∧ Reachable geom1 (stateAfter geom1 [S 0]) ∧
      path geom1 (stateAfter geom1 [S 0]) (L 1).addr = Scan.full) ∧
    (∃ w st2, victim ((stateAfter geom1 [S 0]).queues (setIndex geom1 (L 1).addr)) = some w ∧
      w.x = setIndex geom1 (L 1).addr ∧ w.y < geom1.ways ∧
      operation geom1 (stateAfter geom1 [S 0]) (L 1).opt (L 1).addr = Except.ok st2 ∧
      (st2.cache w.x w.y).dirty = (if (L 1).opt = 'S' then 1 else 0) ∧
      st2.res.dirty_evictions = (stateAfter geom1 [S 0]).res.dirty_evictions +
        (if ((stateAfter geom1 [S 0]).cache w.x w.y).dirty ≠ 0 then offset_byte geom1 else 0) ∧
      (st2.res.dirty_bytes : Int) = ((stateAfter geom1 [S 0]).res.dirty_bytes : Int) +
        ((st2.cache w.x w.y).dirty - ((stateAfter geom1 [S 0]).cache w.x w.y).dirty) *
          (offset_byte geom1 : Int) ∧
      st2.res.misses = (stateAfter geom1 [S 0]).res.misses + 1 ∧
      st2.res.evictions = (stateAfter geom1 [S 0]).res.evictions + 1 ∧
      st2.res.hits = (stateAfter geom1 [S 0]).res.hits) ∧
    (stateAfter geom1 [S 0, L 1]).res =
      { hits := 0, misses := 2, evictions := 1, dirty_bytes := 0, dirty_evictions := 1 } :=
  ⟨⟨by decide, ⟨[S 0], rfl⟩, by decide⟩,
    eviction_dirty_accounting geom1 (by decide) (stateAfter geom1 [S 0]) ⟨[S 0], rfl⟩ (L 1)
      (Or.inr rfl) (by decide),
    by decide⟩

/-- Hit effect at `s = 0, b = 0, E = 1`: after Store(0), the access Store(0) hits way 0;
the run Store(0), Store(0) ends with hits=1, misses=1, evictions=0,
dirty_bytes=1, dirty_evictions=0. -/
theorem hit_effect_witness :
    (Valid geom1 ∧ Reachable geom1 (stateAfter geom1 [S 0]) ∧
      path geom1 (stateAfter geom1 [S 0]) 0 = Scan.hit 0) ∧
    (∃ st2, operation geom1 (stateAfter geom1 [S 0]) 'S' 0 = Except.ok st2 ∧
      st2.res.hits = (stateAfter geom1 [S 0]).res.hits + 1 ∧
      st2.res.misses = (stateAfter geom1 [S 0]).res.misses ∧
      st2.res.evictions = (stateAfter geom1 [S 0]).res.evictions ∧
      st2.res.dirty_evictions = (stateAfter geom1 [S 0]).res.dirty_evictions ∧
      (∀ i j, (st2.cache i j).tag = ((stateAfter geom1 [S 0]).cache i j).tag) ∧
      ('S' = 'S' ∧ ((stateAfter geom1 [S 0]).cache (setIndex geom1 0) 0).dirty = 0 →
        (st2.cache (setIndex geom1 0) 0).dirty = 1 ∧
        (∀ i j, ¬ (i = setIndex geom1 0 ∧ j = 0) →
          (st2.cache i j).dirty = ((stateAfter geom1 [S 0]).cache i j).dirty) ∧
        st2.res.dirty_bytes = (stateAfter geom1 [S 0]).res.dirty_bytes + offset_byte geom1) ∧
      (¬ ('S' = 'S' ∧ ((stateAfter geom1 [S 0]).cache (setIndex geom1 0) 0).dirty = 0) →
        (∀ i j, (st2.cache i j).dirty = ((stateAfter geom1 [S 0]).cache i j).dirty) ∧
        st2.res.dirty_bytes = (stateAfter geom1 [S 0]).res.dirty_bytes)) ∧
    (stateAfter geom1 [S 0, S 0]).res =
      { hits := 1, misses := 1, evictions := 0, dirty_bytes := 1, dirty_evictions := 0 } :=
  ⟨⟨by decide, ⟨[S 0], rfl⟩, by decide⟩,
    hit_effect geom1 (by decide) (stateAfter geom1 [S 0]) ⟨[S 0], rfl⟩ 'S' 0 0 (by decide),
    by decide⟩

/-- Clean-miss effect at `s = 0, b = 0, E = 2`: after Load(0), the access Store(1) fills way 1,
the lowest empty way. -/
theorem clean_miss_effect_witness :
    (Valid geom2 ∧ Reachable geom2 (stateAfter geom2 [L 0]) ∧
      ((stateAfter geom2 [L 0]).cache (setIndex geom2 1) 1).tag = UINT64_MAX ∧
      ((stateAfter geom2 [L 0]).cache (setIndex geom2 1) 0).tag = 0) ∧
    (∃ st2, operation geom2 (stateAfter geom2 [L 0]) 'S' 1 = Except.ok st2 ∧
      path geom2 (stateAfter geom2 [L 0]) 1 = Scan.miss 1 ∧
      (st2.cache (setIndex geom2 1) 1).tag = curTag geom2 1 ∧
      (∀ i j, ¬ (i = setIndex geom2 1 ∧ j = 1) →
        st2.cache i j = (stateAfter geom2 [L 0]).cache i j) ∧
      (st2.cache (setIndex geom2 1) 1).dirty = (if 'S' = 'S' then 1 else 0) ∧
      st2.queues (setIndex geom2 1) =
        { x := setIndex geom2 1, y := 1 } :: (stateAfter geom2 [L 0]).queues (setIndex geom2 1) ∧
      (∀ i, i ≠ setIndex geom2 1 → st2.queues i = (stateAfter geom2 [L 0]).queues i) ∧
      st2.res.misses = (stateAfter geom2 [L 0]).res.misses + 1 ∧
      st2.res.dirty_bytes = (stateAfter geom2 [L 0]).res.dirty_bytes +
        (if 'S' = 'S' then offset_byte geom2 else 0) ∧
      st2.res.hits = (stateAfter geom2 [L 0]).res.hits ∧
      st2.res.evictions = (stateAfter geom2 [L 0]).res.evictions ∧
      st2.res.dirty_evictions = (stateAfter geom2 [L 0]).res.dirty_evictions) :=
  ⟨⟨by decide, ⟨[L 0], rfl⟩, by decide, by decide⟩,
    clean_miss_effect geom2 (by decide) (stateAfter geom2 [L 0]) ⟨[L 0], rfl⟩ 'S' 1 1
      (by decide) (by decide) (by decide) (by decide)⟩

/-- C10 at `s = 0, b = 0, E = 2`: after Load(0), Load(1) the list is way 1, way 0;
Load(2) evicts way 0, the last element, and the list becomes way 0, way 1. -/
theorem eviction_recency_effect_witness :
    (Valid geom2 ∧ Reachable geom2 (stateAfter geom2 [L 0, L 1]) ∧
      path geom2 (stateAfter geom2 [L 0, L 1]) 2 = Scan.full ∧
      waysOf ((stateAfter geom2 [L 0, L 1]).queues 0) = [1, 0] ∧
      waysOf ((stateAfter geom2 [L 0, L 1, L 2]).queues 0) = [0, 1]) ∧
    (∃ v st2, operation geom2 (stateAfter geom2 [L 0, L 1]) 'L' 2 = Except.ok st2 ∧
      victim ((stateAfter geom2 [L 0, L 1]).queues (setIndex geom2 2)) = some v ∧
      ((stateAfter geom2 [L 0, L 1]).queues (setIndex geom2 2)).getLast? = some v ∧
      v.x = setIndex geom2 2 ∧
      (st2.cache v.x v.y).tag = curTag geom2 2 ∧
      (∀ i j, ¬ (i = v.x ∧ j = v.y) → st2.cache i j = (stateAfter geom2 [L 0, L 1]).cache i j) ∧
      st2.queues (setIndex geom2 2) =
        v :: ((stateAfter geom2 [L 0, L 1]).queues (setIndex geom2 2)).dropLast ∧
      (∀ i, i ≠ setIndex geom2 2 → st2.queues i = (stateAfter geom2 [L 0, L 1]).queues i) ∧
      (st2.queues (setIndex geom2 2)).length =
        ((stateAfter geom2 [L 0, L 1]).queues (setIndex geom2 2)).length ∧
      ((stateAfter geom2 [L 0, L 1]).queues (setIndex geom2 2)).length = geom2.ways) :=
  ⟨⟨by decide, ⟨[L 0, L 1], rfl⟩, by decide, by decide, by decide⟩,
    eviction_recency_effect geom2 (by decide) (stateAfter geom2 [L 0, L 1]) ⟨[L 0, L 1], rfl⟩
      'L' 2 (by decide)⟩

/-! ## Where the code departs from the claims -/

/-- C1 (code evaluated at the failing input). With `s = 0, b = 0, E = 3` and the
trace Load(0), Load(1), Load(2), Load(1), the ways 0, 1, 2 were last touched
at records 0, 3, 2.  The next access Load(3) takes the eviction path and the
node popped is way 1, the most recently touched way: its tag 1 is replaced
by 3 while tag 0, the least recently used, stays. -/
theorem eviction_not_lru_three_ways :
    Valid geom3 ∧
      lastTouch geom3 [L 0, L 1, L 2, L 1] 0 0 = some 0 ∧
      lastTouch geom3 [L 0, L 1, L 2, L 1] 0 1 = some 3 ∧
      lastTouch geom3 [L 0, L 1, L 2, L 1] 0 2 = some 2 ∧
      path geom3 (stateAfter geom3 [L 0, L 1, L 2, L 1]) 3 = Scan.full ∧
      victim ((stateAfter geom3 [L 0, L 1, L 2, L 1]).queues 0) = some { x := 0, y := 1 } ∧
      (List.range 3).map (fun j => ((stateAfter geom3 [L 0, L 1, L 2, L 1]).cache 0 j).tag) =
        [0, 1, 2] ∧
      (List.range 3).map (fun j => ((stateAfter geom3 [L 0, L 1, L 2, L 1, L 3]).cache 0 j).tag) =
        [0, 3, 2] ∧
      (stateAfter geom3 [L 0, L 1, L 2, L 1, L 3]).res =
        { hits := 1, misses := 4, evictions := 1, dirty_bytes := 0, dirty_evictions := 0 } := by
  decide

/-- C2 (code evaluated at the failing input). With `s = 0, b = 0, E = 3`, after
Load(0), Load(1), Load(2) the recency list is way 2, way 1, way 0.  Load(1)
hits way 1; the list becomes way 0, way 2, way 1 (the last node moved to the
front), not way 1, way 2, way 0. -/
theorem hit_moves_last_node_three_ways :
    Valid geom3 ∧
      waysOf ((stateAfter geom3 [L 0, L 1, L 2]).queues 0) = [2, 1, 0] ∧
      path geom3 (stateAfter geom3 [L 0, L 1, L 2]) 1 = Scan.hit 1 ∧
      waysOf ((stateAfter geom3 [L 0, L 1, L 2, L 1]).queues 0) = [0, 2, 1] ∧
      waysOf ((stateAfter geom3 [L 0, L 1, L 2, L 1]).queues 0) ≠
        1 :: ([2, 1, 0] : List Nat).erase 1 := by
  decide

/-- C6 (code evaluated at the failing input). The address `2^63` passes the
check of `parse_line`, yet operation computes tag 0 for it, not
`2^63 >> (s + b)`; it decodes exactly like address 0, so Load(0) followed by
Load(2^63) is counted as a hit. -/
theorem tag_of_top_address :
    Valid geom1 ∧ addr_accepted (2 ^ 63) = true ∧
      curTag geom1 (2 ^ 63) = 0 ∧
      (2 ^ 63) >>> (geom1.set_size + geom1.offset_size) = 2 ^ 63 ∧
      curTag geom1 (2 ^ 63) ≠ (2 ^ 63) >>> (geom1.set_size + geom1.offset_size) ∧
      setIndex geom1 (2 ^ 63) = setIndex geom1 0 ∧
      (stateAfter geom1 [L 0, L (2 ^ 63)]).res =
        { hits := 1, misses := 1, evictions := 0, dirty_bytes := 0, dirty_evictions := 0 } := by
  decide

/-! ## The scan of the code against the two-phase search of the spec -/

theorem findFrom_some_of {p : Nat → Bool} {n ind w : Nat} (h1 : ind ≤ w) (h2 : w < ind + n)
    (h3 : p w = true) (h4 : ∀ j, ind ≤ j → j < w → p j = false) :
    findFrom p n ind = some w := by
  induction n generalizing ind with
  | zero => omega
  | succ n ih =>
    unfold findFrom
    by_cases hw : ind = w
    · subst hw
      rw [if_pos h3]
    · have hf := h4 ind (le_refl _) (by omega)
      rw [hf]
      simp only [Bool.false_eq_true, if_false]
      exact ih (by omega) (by omega) (fun j hj hj2 => h4 j (by omega) hj2)

theorem findFrom_none_of {p : Nat → Bool} {n ind : Nat}
    (h : ∀ j, ind ≤ j → j < ind + n → p j = false) : findFrom p n ind = none := by
  induction n generalizing ind with
  | zero => rfl
  | succ n ih =>
    unfold findFrom
    rw [h ind (le_refl _) (by omega)]
    simp only [Bool.false_eq_true, if_false]
    exact ih (fun j hj hj2 => h j (by omega) (by omega))

theorem path_eq_specPath {g : Geometry} {st : Sim} (hI : SimInv g st) (addr : Nat) :
    path g st addr = specPath g st addr := by
  unfold specPath
  cases hp : path g st addr with
  | miss w =>
    unfold path at hp
    obtain ⟨_, hw, he, hb⟩ := scan_miss hp
    obtain ⟨k, _, ho, _⟩ := hI.fill (setIndex g addr)
    have hk : k = w := fill_level ho he (fun j hj => (hb j (Nat.zero_le _) hj).1)
    subst hk
    have hl : lookup (st.cache (setIndex g addr)) g.ways (curTag g addr) = none := by
      apply findFrom_none_of
      intro j _ _
      by_cases hj : j < k
      · simp [(hb j (Nat.zero_le _) hj).2]
      · have : (st.cache (setIndex g addr) j).tag = UINT64_MAX := by
          by_contra hne
          exact hj ((ho j).mp hne)
        simp [this]
    have hf : first_empty_way (st.cache (setIndex g addr)) g.ways = some k := by
      apply findFrom_some_of (Nat.zero_le _) hw
      · simp [he]
      · intro j _ hj
        simp [(hb j (Nat.zero_le _) hj).1]
    rw [hl, hf]
  | hit w =>
    unfold path at hp
    obtain ⟨_, hw, hocc, htag, hb⟩ := scan_hit hp
    have hl : lookup (st.cache (setIndex g addr)) g.ways (curTag g addr) = some w := by
      apply findFrom_some_of (Nat.zero_le _) hw
      · simp only [Bool.and_eq_true, decide_eq_true_eq]
        exact ⟨hocc, htag⟩
      · intro j _ hj
        simp [(hb j (Nat.zero_le _) hj).2]
    rw [hl]
  | full =>
    unfold path at hp
    have hb := scan_full hp
    have hl : lookup (st.cache (setIndex g addr)) g.ways (curTag g addr) = none := by
      apply findFrom_none_of
      intro j _ hj
      simp [(hb j (Nat.zero_le _) hj).2]
    have hf : first_empty_way (st.cache (setIndex g addr)) g.ways = none := by
      apply findFrom_none_of
      intro j _ hj
      simp [(hb j (Nat.zero_le _) hj).1]
    rw [hl, hf]

theorem path_cases {g : Geometry} {st : Sim} (hI : SimInv g st) (addr : Nat) :
    ((∃ w, path g st addr = Scan.hit w) ↔
      ∃ j, j < g.ways ∧ (st.cache (setIndex g addr) j).tag ≠ UINT64_MAX ∧
        (st.cache (setIndex g addr) j).tag = curTag g addr) ∧
    ((∃ w, path g st addr = Scan.miss w) ↔
      (¬ ∃ j, j < g.ways ∧ (st.cache (setIndex g addr) j).tag ≠ UINT64_MAX ∧
        (st.cache (setIndex g addr) j).tag = curTag g addr) ∧
      ∃ j, j < g.ways ∧ (st.cache (setIndex g addr) j).tag = UINT64_MAX) ∧
    (path g st addr = Scan.full ↔
      (¬ ∃ j, j < g.ways ∧ (st.cache (setIndex g addr) j).tag ≠ UINT64_MAX ∧
        (st.cache (setIndex g addr) j).tag = curTag g addr) ∧
      ∀ j, j < g.ways → (st.cache (setIndex g addr) j).tag ≠ UINT64_MAX) := by
  cases hp : path g st addr with
  | miss w =>
    unfold path at hp
    obtain ⟨_, hw, he, hb⟩ := scan_miss hp
    obtain ⟨k, _, ho, _⟩ := hI.fill (setIndex g addr)
    have hk : k = w := fill_level ho he (fun j hj => (hb j (Nat.zero_le _) hj).1)
    subst hk
    have hnr : ¬ ∃ j, j < g.ways ∧ (st.cache (setIndex g addr) j).tag ≠ UINT64_MAX ∧
        (st.cache (setIndex g addr) j).tag = curTag g addr := by
      rintro ⟨j, _, hj1, hj2⟩
      exact (hb j (Nat.zero_le _) ((ho j).mp hj1)).2 hj2
    refine ⟨⟨fun ⟨_, h⟩ => (by cases h), fun h => absurd h hnr⟩,
      ⟨fun _ => ⟨hnr, k, by omega, he⟩, fun _ => ⟨k, rfl⟩⟩,
      ⟨fun h => (by cases h), fun h => absurd he (h.2 k (by omega))⟩⟩
  | hit w =>
    unfold path at hp
    obtain ⟨_, hw, hocc, htag, _⟩ := scan_hit hp
    have hr : ∃ j, j < g.ways ∧ (st.cache (setIndex g addr) j).tag ≠ UINT64_MAX ∧
        (st.cache (setIndex g addr) j).tag = curTag g addr := ⟨w, by omega, hocc, htag⟩
    refine ⟨⟨fun _ => hr, fun _ => ⟨w, rfl⟩⟩,
      ⟨fun ⟨_, h⟩ => (by cases h), fun h => absurd hr h.1⟩,
      ⟨fun h => (by cases h), fun h => absurd hr h.1⟩⟩
  | full =>
    unfold path at hp
    have hb := scan_full hp
    have hnr : ¬ ∃ j, j < g.ways ∧ (st.cache (setIndex g addr) j).tag ≠ UINT64_MAX ∧
        (st.cache (setIndex g addr) j).tag = curTag g addr := by
      rintro ⟨j, hj, _, hj2⟩
      exact (hb j (Nat.zero_le _) (by omega)).2 hj2
    refine ⟨⟨fun ⟨_, h⟩ => (by cases h), fun h => absurd h hnr⟩,
      ⟨fun ⟨_, h⟩ => (by cases h), fun ⟨_, j, hj, hj2⟩ => absurd hj2 (hb j (Nat.zero_le _) (by omega)).1⟩,
      ⟨fun _ => ⟨hnr, fun j hj => (hb j (Nat.zero_le _) (by omega)).1⟩, fun _ => rfl⟩⟩


/-! ## What one step leaves alone -/

theorem setQueue_other (q : Nat → List LRU) (i : Nat) (l : List LRU) (i2 : Nat) (h : i2 ≠ i) :
    setQueue q i l i2 = q i2 := by
  simp [setQueue, h]

theorem setBlock_row_other (c : Nat → Nat → Block) (i j : Nat) (blk : Block) (i2 j2 : Nat)
    (h : i2 ≠ i) : setBlock c i j blk i2 j2 = c i2 j2 :=
  setBlock_other c i j blk i2 j2 (fun a => h a.1)

theorem setBlock_occ (c : Nat → Nat → Block) (i j : Nat) (d : Int) (t : Nat)
    (ht : t ≠ UINT64_MAX) (i2 j2 : Nat) (h : (c i2 j2).tag ≠ UINT64_MAX) :
    (setBlock c i j { dirty := d, tag := t } i2 j2).tag ≠ UINT64_MAX := by
  by_cases a : i2 = i ∧ j2 = j
  · rw [a.1, a.2, setBlock_same]
    exact ht
  · rw [setBlock_other _ _ _ _ _ _ a]
    exact h

theorem step_frame {g : Geometry} (hv : Valid g) {st : Sim} (hI : SimInv g st)
    (opt : Char) (addr : Nat) :
    ∃ st2, operation g st opt addr = Except.ok st2 ∧ SimInv g st2 ∧
      (∀ i, i ≠ setIndex g addr →
        (∀ j, st2.cache i j = st.cache i j) ∧ st2.queues i = st.queues i) ∧
      (∀ i j, (st.cache i j).tag ≠ UINT64_MAX → (st2.cache i j).tag ≠ UINT64_MAX) := by
  have ht := curTag_ne_max g hv.2 addr
  cases hp : path g st addr with
  | miss w =>
    obtain ⟨hop, hI2⟩ := miss_step hv hI opt addr w hp
    refine ⟨_, hop, hI2, ?_, ?_⟩
    · intro i hi
      unfold missBody
      by_cases hS : opt = 'S'
      · simp only [if_pos hS]
        exact ⟨fun j => setBlock_row_other _ _ _ _ _ _ hi, setQueue_other _ _ _ _ hi⟩
      · simp only [if_neg hS]
        exact ⟨fun j => setBlock_row_other _ _ _ _ _ _ hi, setQueue_other _ _ _ _ hi⟩
    · intro i j h
      unfold missBody
      by_cases hS : opt = 'S'
      · simp only [if_pos hS]
        exact setBlock_occ _ _ _ _ _ ht _ _ h
      · simp only [if_neg hS]
        exact setBlock_occ _ _ _ _ _ ht _ _ h
  | hit w =>
    obtain ⟨top, t, st2, _, hop, hc, hqs, _, hI2⟩ := hit_step hv hI opt addr w hp
    refine ⟨st2, hop, hI2, ?_, ?_⟩
    · intro i hi
      rw [hc, hqs]
      constructor
      · intro j
        by_cases h : (st.cache (setIndex g addr) w).dirty = 0 ∧ opt = 'S'
        · rw [if_pos h]
          exact setBlock_row_other _ _ _ _ _ _ hi
        · rw [if_neg h]
      · by_cases h : top.y ≠ w
        · rw [if_pos h]
          exact setQueue_other _ _ _ _ hi
        · rw [if_neg h]
    · intro i j h
      rw [hc]
      by_cases h2 : (st.cache (setIndex g addr) w).dirty = 0 ∧ opt = 'S'
      · rw [if_pos h2, setBlock_tag_same]
        exact h
      · rw [if_neg h2]
        exact h
  | full =>
    obtain ⟨top, t, st2, _, _, _, _, hop, hc, hqs, _, _, hI2⟩ := evict_step hv hI opt addr hp
    refine ⟨st2, hop, hI2, ?_, ?_⟩
    · intro i hi
      rw [hc, hqs]
      exact ⟨fun j => setBlock_row_other _ _ _ _ _ _ hi, setQueue_other _ _ _ _ hi⟩
    · intro i j h
      rw [hc]
      exact setBlock_occ _ _ _ _ _ ht _ _ h

theorem process_cons (g : Geometry) (st : Sim) (l : FileLine) (ls : List FileLine) :
    process_trace_file g st (l :: ls) =
      (match operation g st l.opt l.addr with
       | Except.error e => Except.error e
       | Except.ok st2 => process_trace_file g st2 ls) := rfl

theorem process_append (g : Geometry) (tr ls : List FileLine) :
    ∀ st, process_trace_file g st (tr ++ ls) =
      (match process_trace_file g st tr with
       | Except.error e => Except.error e
       | Except.ok st2 => process_trace_file g st2 ls) := by
  induction tr with
  | nil => exact fun st => rfl
  | cons l tr ih =>
    intro st
    rw [List.cons_append, process_cons, process_cons]
    cases operation g st l.opt l.addr with
    | error e => rfl
    | ok st1 => exact ih st1

theorem run_append {g : Geometry} {tr : List FileLine} {st : Sim}
    (h : run g tr = Except.ok st) (ls : List FileLine) :
    run g (tr ++ ls) = process_trace_file g st ls := by
  unfold run at *
  rw [process_append, h]

theorem process_occ {g : Geometry} (hv : Valid g) (ls : List FileLine) :
    ∀ st st2, SimInv g st → process_trace_file g st ls = Except.ok st2 →
      ∀ i j, (st.cache i j).tag ≠ UINT64_MAX → (st2.cache i j).tag ≠ UINT64_MAX := by
  induction ls with
  | nil =>
    intro st st2 _ h i j hocc
    injection h with h
    rw [← h]
    exact hocc
  | cons l ls ih =>
    intro st st2 hI h i j hocc
    obtain ⟨st1, hop, hI1, _, hkeep⟩ := step_frame hv hI l.opt l.addr
    rw [process_cons, hop] at h
    exact ih st1 st2 hI1 h i j (hkeep i j hocc)

theorem run_ways_zero {g : Geometry} (h0 : g.ways = 0) {tr : List FileLine} {st : Sim}
    (h : run g tr = Except.ok st) : tr = [] := by
  cases tr with
  | nil => rfl
  | cons l ls =>
    exfalso
    unfold run at h
    rw [process_cons] at h
    have : operation g (init g) l.opt l.addr = Except.error Fault.queueEmpty := by
      simp [operation, h0, scanLoop, evictBody, pop, init, allocateQueueArray]
    rw [this] at h
    cases h

theorem curTag_lt_width (g : Geometry) (h : g.set_size + g.offset_size < 64) (addr : Nat) :
    curTag g addr < 2 ^ (63 - g.set_size - g.offset_size) := by
  apply Nat.lt_pow_two_of_testBit
  intro i hi
  rw [curTag_testBit g h]
  have e : ¬ (g.set_size + g.offset_size + i < 63) := by omega
  simp [e]

theorem offset_byte_ne_pow (g : Geometry) (h1 : 31 ≤ g.offset_size) (h2 : g.offset_size < 64) :
    offset_byte g ≠ 2 ^ g.offset_size := by
  have hlo : (2 : Nat) ^ 31 ≤ 2 ^ g.offset_size := Nat.pow_le_pow_right (by decide) h1
  have hhi : (2 : Nat) ^ g.offset_size ≤ 2 ^ 63 := Nat.pow_le_pow_right (by decide) (by omega)
  unfold offset_byte
  by_cases hv : 2 ^ (g.offset_size % 32) < 2 ^ 31
  · simp only [if_pos hv]
    omega
  · simp only [if_neg hv]
    omega


/-! ## The claims, continued -/

/-- C13 (code evaluated at the failing inputs). With `b = 31` the amount
`offset_byte` is `2^64 - 2^31` and with `b = 32` it is 1, while main computes
`offsets = 1ul << b` as `2^31` and `2^32`; a single Store(0) with `b = 32`
leaves dirty_bytes at 1. -/
theorem offset_byte_beyond_30 :
    Valid geomB31 ∧ Valid geomB32 ∧
      offset_byte geomB31 = 2 ^ 64 - 2 ^ 31 ∧ offsets geomB31 = 2 ^ 31 ∧
      offset_byte geomB31 ≠ 2 ^ geomB31.offset_size ∧
      offset_byte geomB32 = 1 ∧ offsets geomB32 = 2 ^ 32 ∧
      offset_byte geomB32 ≠ 2 ^ geomB32.offset_size ∧
      (stateAfter geomB32 [S 0]).res =
        { hits := 0, misses := 1, evictions := 0, dirty_bytes := 1, dirty_evictions := 0 } := by
  decide

/-- C14. Path selection: in every reachable state of a valid geometry the
scan of the code takes the path the two-phase search of the spec takes
(`lookup`, then `first_empty_way`, then eviction).  It hits exactly when some
occupied way below `E` of the decoded set holds the decoded tag; it takes
the clean-miss path exactly when no occupied way holds it and some way below
`E` is empty; it takes the eviction path exactly when no occupied way holds it
and all `E` ways are occupied; and one of the three paths is taken. -/
theorem path_selection (g : Geometry) (hv : Valid g) (st : Sim) (hr : Reachable g st)
    (addr : Nat) :
    path g st addr = specPath g st addr ∧
    ((∃ w, path g st addr = Scan.hit w) ↔
      ∃ j, j < g.ways ∧ (st.cache (setIndex g addr) j).tag ≠ UINT64_MAX ∧
        (st.cache (setIndex g addr) j).tag = curTag g addr) ∧
    ((∃ w, path g st addr = Scan.miss w) ↔
      (¬ ∃ j, j < g.ways ∧ (st.cache (setIndex g addr) j).tag ≠ UINT64_MAX ∧
        (st.cache (setIndex g addr) j).tag = curTag g addr) ∧
      ∃ j, j < g.ways ∧ (st.cache (setIndex g addr) j).tag = UINT64_MAX) ∧
    (path g st addr = Scan.full ↔
      (¬ ∃ j, j < g.ways ∧ (st.cache (setIndex g addr) j).tag ≠ UINT64_MAX ∧
        (st.cache (setIndex g addr) j).tag = curTag g addr) ∧
      ∀ j, j < g.ways → (st.cache (setIndex g addr) j).tag ≠ UINT64_MAX) ∧
    ((∃ w, path g st addr = Scan.hit w) ∨ (∃ w, path g st addr = Scan.miss w) ∨
      path g st addr = Scan.full) := by
  have hI := reachable_inv hv hr
  obtain ⟨h1, h2, h3⟩ := path_cases hI addr
  refine ⟨path_eq_specPath hI addr, h1, h2, h3, ?_⟩
  cases path g st addr with
  | miss w => exact Or.inr (Or.inl ⟨w, rfl⟩)
  | hit w => exact Or.inl ⟨w, rfl⟩
  | full => exact Or.inr (Or.inr rfl)

/-- C15. No duplicate tags: for every valid geometry, after any initial segment
of any trace the run succeeds and no two occupied slots of one set hold the
same tag. -/
theorem no_duplicate_tags (g : Geometry) (hv : Valid g) (tr : List FileLine) (n : Nat) :
    ∃ st, run g (tr.take n) = Except.ok st ∧
      ∀ i j1 j2, (st.cache i j1).tag ≠ UINT64_MAX → (st.cache i j2).tag ≠ UINT64_MAX →
        (st.cache i j1).tag = (st.cache i j2).tag → j1 = j2 := by
  obtain ⟨st, hrun, hI⟩ := run_inv hv (tr.take n)
  exact ⟨st, hrun, fun i j1 j2 h1 _ h => hI.distinct i j1 j2 h1 h⟩

/-- C17. The empty-slot sentinel never collides with a tag: for every
geometry with `s + b < 64` and every address, the tag decoded by operation
is below `2^(63 - s - b)` and so differs from `UINT64_MAX`; and along any
run, a slot that is occupied after a trace `tr` is still occupied after any
longer trace `tr ++ ls`. -/
theorem sentinel_never_a_tag (g : Geometry) (h : g.set_size + g.offset_size < 64)
    (addr : Nat) :
    curTag g addr < 2 ^ (63 - g.set_size - g.offset_size) ∧
    curTag g addr ≠ UINT64_MAX ∧
    ∀ (tr ls : List FileLine) (st st2 : Sim), run g tr = Except.ok st →
      run g (tr ++ ls) = Except.ok st2 →
      ∀ i j, (st.cache i j).tag ≠ UINT64_MAX → (st2.cache i j).tag ≠ UINT64_MAX := by
  refine ⟨curTag_lt_width g h addr, curTag_ne_max g h addr, ?_⟩
  intro tr ls st st2 h1 h2 i j hocc
  by_cases hE : 1 ≤ g.ways
  · have hv : Valid g := ⟨hE, h⟩
    have hI : SimInv g st := reachable_inv hv ⟨tr, h1⟩
    rw [run_append h1] at h2
    exact process_occ hv ls st st2 hI h2 i j hocc
  · have h0 : g.ways = 0 := by omega
    have e1 := run_ways_zero h0 h1
    have e2 := run_ways_zero h0 h2
    rw [e1] at h1
    rw [e2] at h2
    rw [h1] at h2
    injection h2 with h2
    rw [← h2]
    exact hocc

/-- C19. Set isolation: in every reachable state of a valid geometry, an access
whose address decodes to set `setIndex g addr` succeeds and leaves every slot
(tag and dirty flag) and the recency list of every other set unchanged. -/
theorem set_isolation (g : Geometry) (hv : Valid g) (st : Sim) (hr : Reachable g st)
    (opt : Char) (addr : Nat) :
    ∃ st2, operation g st opt addr = Except.ok st2 ∧
      ∀ i, i ≠ setIndex g addr →
        (∀ j, (st2.cache i j).tag = (st.cache i j).tag ∧
          (st2.cache i j).dirty = (st.cache i j).dirty) ∧
        st2.queues i = st.queues i := by
  obtain ⟨st2, hop, _, hframe, _⟩ := step_frame hv (reachable_inv hv hr) opt addr
  refine ⟨st2, hop, fun i hi => ⟨fun j => ?_, (hframe i hi).2⟩⟩
  rw [(hframe i hi).1 j]
  exact ⟨rfl, rfl⟩


/-! ## Counting occupied blocks -/

theorem occCount_setBlock (c : Nat → Nat → Block) (R C i j : Nat) (blk : Block)
    (hi : i < R) (hj : j < C) :
    occCount (setBlock c i j blk) R C + occBit (c i j) = occCount c R C + occBit blk := by
  unfold occCount
  have hrow : Finset.sum (Finset.range C) (fun j2 => occBit (setBlock c i j blk i j2)) +
      occBit (c i j) =
      Finset.sum (Finset.range C) (fun j2 => occBit (c i j2)) + occBit blk := by
    have := sum_update_one (fun j2 => occBit (c i j2))
      (fun j2 => occBit (setBlock c i j blk i j2)) C j hj
      (fun j2 hj2 => by
        show occBit (setBlock c i j blk i j2) = occBit (c i j2)
        rw [setBlock_other c i j blk i j2 (fun h => hj2 h.2)])
    simpa [setBlock_same] using this
  have hm : i ∈ Finset.range R := Finset.mem_range.mpr hi
  have h1 := Finset.add_sum_erase (Finset.range R)
    (fun i2 => Finset.sum (Finset.range C) fun j2 => occBit (c i2 j2)) hm
  have h2 := Finset.add_sum_erase (Finset.range R)
    (fun i2 => Finset.sum (Finset.range C) fun j2 => occBit (setBlock c i j blk i2 j2)) hm
  have h3 : Finset.sum ((Finset.range R).erase i)
        (fun i2 => Finset.sum (Finset.range C) fun j2 => occBit (setBlock c i j blk i2 j2)) =
      Finset.sum ((Finset.range R).erase i)
        (fun i2 => Finset.sum (Finset.range C) fun j2 => occBit (c i2 j2)) := by
    apply Finset.sum_congr rfl
    intro i2 hi2
    apply Finset.sum_congr rfl
    intro j2 _
    rw [setBlock_other c i j blk i2 j2 (fun h => Finset.ne_of_mem_erase hi2 h.1)]
  rw [← h1, ← h2, h3]
  simp only
  linarith

theorem occCount_cols (c : Nat → Nat → Block) (R E C : Nat) (hEC : E ≤ C)
    (h : ∀ i j, E ≤ j → (c i j).tag = UINT64_MAX) : occCount c R C = occCount c R E := by
  unfold occCount
  apply Finset.sum_congr rfl
  intro i _
  symm
  apply Finset.sum_subset
  · intro j hj
    exact Finset.mem_range.mpr (lt_of_lt_of_le (Finset.mem_range.mp hj) hEC)
  · intro j _ hj
    have : E ≤ j := by
      by_contra hlt
      exact hj (Finset.mem_range.mpr (by omega))
    simp [occBit, h i j this]

theorem occCount_le (c : Nat → Nat → Block) (R C : Nat) : occCount c R C ≤ R * C := by
  unfold occCount
  have h1 : ∀ i ∈ Finset.range R,
      Finset.sum (Finset.range C) (fun j => occBit (c i j)) ≤ C := by
    intro i _
    have h2 : ∀ j ∈ Finset.range C, occBit (c i j) ≤ 1 := by
      intro j _
      unfold occBit
      split <;> omega
    have := Finset.sum_le_sum h2
    simpa using this
  have := Finset.sum_le_sum h1
  simpa using this

theorem occCount_init (g : Geometry) (R C : Nat) : occCount (init g).cache R C = 0 := by
  unfold occCount
  apply Finset.sum_eq_zero
  intro i _
  apply Finset.sum_eq_zero
  intro j _
  simp [occBit, init, allocateCache]

theorem occBit_occupied {blk : Block} (h : blk.tag ≠ UINT64_MAX) : occBit blk = 1 := by
  simp [occBit, h]

theorem occBit_empty {blk : Block} (h : blk.tag = UINT64_MAX) : occBit blk = 0 := by
  simp [occBit, h]

theorem step_counts {g : Geometry} (hv : Valid g) {st : Sim} (hI : SimInv g st)
    (opt : Char) (addr : Nat) :
    ∃ st2, operation g st opt addr = Except.ok st2 ∧ SimInv g st2 ∧
      st2.res.hits + st2.res.misses = st.res.hits + st.res.misses + 1 ∧
      st2.res.misses + st.res.evictions + occCount st.cache (2 ^ g.set_size) g.ways =
        st.res.misses + st2.res.evictions + occCount st2.cache (2 ^ g.set_size) g.ways := by
  have ht := curTag_ne_max g hv.2 addr
  have hset := setIndex_lt g hv.2 addr
  cases hp : path g st addr with
  | miss w =>
    obtain ⟨hop, hI2⟩ := miss_step hv hI opt addr w hp
    unfold path at hp
    obtain ⟨_, hw, he, _⟩ := scan_miss hp
    refine ⟨_, hop, hI2, ?_⟩
    unfold missBody
    by_cases hS : opt = 'S'
    · simp only [if_pos hS]
      have h := occCount_setBlock st.cache (2 ^ g.set_size) g.ways (setIndex g addr) w
        { dirty := 1, tag := curTag g addr } hset (by omega)
      rw [occBit_empty he, occBit_occupied (by exact ht)] at h
      constructor <;> omega
    · simp only [if_neg hS]
      have h := occCount_setBlock st.cache (2 ^ g.set_size) g.ways (setIndex g addr) w
        { dirty := (st.cache (setIndex g addr) w).dirty, tag := curTag g addr } hset (by omega)
      rw [occBit_empty he, occBit_occupied (by exact ht)] at h
      constructor <;> omega
  | hit w =>
    obtain ⟨top, t, st2, _, hop, hc, _, hres, hI2⟩ := hit_step hv hI opt addr w hp
    unfold path at hp
    obtain ⟨_, hw, hocc, _, _⟩ := scan_hit hp
    refine ⟨st2, hop, hI2, ?_⟩
    have hcount : occCount st2.cache (2 ^ g.set_size) g.ways =
        occCount st.cache (2 ^ g.set_size) g.ways := by
      rw [hc]
      by_cases h2 : (st.cache (setIndex g addr) w).dirty = 0 ∧ opt = 'S'
      · rw [if_pos h2]
        have h := occCount_setBlock st.cache (2 ^ g.set_size) g.ways (setIndex g addr) w
          { dirty := 1, tag := (st.cache (setIndex g addr) w).tag } hset (by omega)
        rw [occBit_occupied hocc, occBit_occupied (by exact hocc)] at h
        omega
      · rw [if_neg h2]
    rw [hcount, hres]
    constructor
    · simp only
      omega
    · simp only
  | full =>
    obtain ⟨top, t, st2, _, _, _, hy, hop, hc, _, hres, _, hI2⟩ :=
      evict_step hv hI opt addr hp
    unfold path at hp
    have hocc := (scan_full hp (popLast top t).1.y (Nat.zero_le _) (by omega)).1
    refine ⟨st2, hop, hI2, ?_⟩
    have hcount : occCount st2.cache (2 ^ g.set_size) g.ways =
        occCount st.cache (2 ^ g.set_size) g.ways := by
      rw [hc]
      have h := occCount_setBlock st.cache (2 ^ g.set_size) g.ways (setIndex g addr)
        (popLast top t).1.y
        { dirty :=
            (if (st.cache (setIndex g addr) (popLast top t).1.y).dirty = 1 then
              (if opt = 'L' then 0 else (st.cache (setIndex g addr) (popLast top t).1.y).dirty)
             else
              (if opt = 'S' then 1 else (st.cache (setIndex g addr) (popLast top t).1.y).dirty))
          tag := curTag g addr } hset hy
      rw [occBit_occupied hocc, occBit_occupied (by exact ht)] at h
      omega
    rw [hcount, hres]
    constructor <;> simp only <;> omega

theorem process_counts {g : Geometry} (hv : Valid g) (ls : List FileLine) :
    ∀ st, SimInv g st → ∃ st2, process_trace_file g st ls = Except.ok st2 ∧ SimInv g st2 ∧
      st2.res.hits + st2.res.misses = st.res.hits + st.res.misses + ls.length ∧
      st2.res.misses + st.res.evictions + occCount st.cache (2 ^ g.set_size) g.ways =
        st.res.misses + st2.res.evictions + occCount st2.cache (2 ^ g.set_size) g.ways := by
  induction ls with
  | nil => exact fun st hI => ⟨st, rfl, hI, rfl, by omega⟩
  | cons l ls ih =>
    intro st hI
    obtain ⟨st1, hop, hI1, a1, b1⟩ := step_counts hv hI l.opt l.addr
    obtain ⟨st2, hrun, hI2, a2, b2⟩ := ih st1 hI1
    refine ⟨st2, by rw [process_cons, hop]; exact hrun, hI2, ?_, ?_⟩
    · simp only [List.length_cons]
      omega
    · omega


/-! ## A second access to the same address -/

theorem scan_hit_of {row : Nat → Block} {tag : Nat} {n ind w : Nat}
    (h1 : ind ≤ w) (h2 : w < ind + n) (h3 : (row w).tag ≠ UINT64_MAX)
    (h3b : (row w).tag = tag)
    (h4 : ∀ j, ind ≤ j → j < w → (row j).tag ≠ UINT64_MAX ∧ (row j).tag ≠ tag) :
    scanLoop row tag n ind = Scan.hit w := by
  induction n generalizing ind with
  | zero => omega
  | succ n ih =>
    unfold scanLoop
    by_cases hw : ind = w
    · subst hw
      rw [if_neg h3, if_pos h3b]
    · have := h4 ind (le_refl _) (by omega)
      rw [if_neg this.1, if_neg this.2]
      exact ih (by omega) (by omega) (fun j hj hj2 => h4 j (by omega) hj2)

theorem scan_congr {row row2 : Nat → Block} (tag : Nat)
    (h : ∀ j, (row2 j).tag = (row j).tag) (n ind : Nat) :
    scanLoop row2 tag n ind = scanLoop row tag n ind := by
  induction n generalizing ind with
  | zero => rfl
  | succ n ih =>
    unfold scanLoop
    rw [h ind, ih]

theorem reaccess_path {g : Geometry} (hv : Valid g) {st st2 : Sim} (hI : SimInv g st)
    (opt : Char) (addr : Nat) (hop : operation g st opt addr = Except.ok st2) :
    ∃ w, path g st2 addr = Scan.hit w := by
  have ht := curTag_ne_max g hv.2 addr
  cases hp : path g st addr with
  | miss w =>
    obtain ⟨hop2, _⟩ := miss_step hv hI opt addr w hp
    rw [hop2] at hop
    injection hop with hop
    unfold path at hp
    obtain ⟨_, hw, _, hb⟩ := scan_miss hp
    refine ⟨w, ?_⟩
    have hrow : ∀ j, (st2.cache (setIndex g addr) j).tag =
        if j = w then curTag g addr else (st.cache (setIndex g addr) j).tag := by
      intro j
      rw [← hop]
      unfold missBody
      by_cases hS : opt = 'S'
      · simp only [if_pos hS, setBlock]
        by_cases hj : j = w <;> simp [hj]
      · simp only [if_neg hS, setBlock]
        by_cases hj : j = w <;> simp [hj]
    unfold path
    apply scan_hit_of (Nat.zero_le _) hw
    · rw [hrow, if_pos rfl]
      exact ht
    · rw [hrow, if_pos rfl]
    · intro j hj hj2
      rw [hrow, if_neg (by omega)]
      exact hb j hj hj2
  | hit w =>
    obtain ⟨_, _, st3, _, hop2, hc, _, _, _⟩ := hit_step hv hI opt addr w hp
    rw [hop2] at hop
    injection hop with hop
    subst hop
    refine ⟨w, ?_⟩
    unfold path at *
    rw [← hp]
    apply scan_congr
    intro j
    rw [hc]
    by_cases h2 : (st.cache (setIndex g addr) w).dirty = 0 ∧ opt = 'S'
    · rw [if_pos h2, setBlock_tag_same]
    · rw [if_neg h2]
  | full =>
    obtain ⟨top, t, st3, _, _, _, hy, hop2, hc, _, _, _, _⟩ := evict_step hv hI opt addr hp
    rw [hop2] at hop
    injection hop with hop
    subst hop
    unfold path at hp
    have hb := scan_full hp
    refine ⟨(popLast top t).1.y, ?_⟩
    unfold path
    rw [hc]
    apply scan_hit_of (Nat.zero_le _) (by omega)
    · rw [setBlock_same]
      exact ht
    · rw [setBlock_same]
    · intro j hj hj2
      rw [setBlock_other _ _ _ _ _ _ (fun a => by omega)]
      exact hb j hj (by omega)

theorem load_hit_effect {g : Geometry} (hv : Valid g) {st : Sim} (hI : SimInv g st)
    (addr w : Nat) (hp : path g st addr = Scan.hit w) :
    ∃ st2, operation g st 'L' addr = Except.ok st2 ∧ st2.cache = st.cache ∧
      st2.res.hits = st.res.hits + 1 ∧ st2.res.misses = st.res.misses ∧
      st2.res.evictions = st.res.evictions ∧ st2.res.dirty_bytes = st.res.dirty_bytes ∧
      st2.res.dirty_evictions = st.res.dirty_evictions := by
  obtain ⟨_, _, st2, _, hop, hc, _, hres, _⟩ := hit_step hv hI 'L' addr w hp
  have hLS : ¬ ((st.cache (setIndex g addr) w).dirty = 0 ∧ ('L' : Char) = 'S') :=
    fun a => absurd a.2 (by decide)
  rw [if_neg hLS] at hc
  refine ⟨st2, hop, hc, ?_⟩
  rw [hres]
  simp [hLS]


/-- C20. Counter/occupancy relation: for every valid geometry, after any
initial segment of any trace the run succeeds, misses equals evictions plus
the number of occupied slots of the grid (rows below `2^s`, any number of
columns that covers the `E` ways), so evictions is at most misses and their
difference is at most `2^s * E`; and hits plus misses equals the number of
records processed. -/
theorem counters_match_occupancy (g : Geometry) (hv : Valid g) (tr : List FileLine)
    (n : Nat) :
    ∃ st, run g (tr.take n) = Except.ok st ∧
      (∀ cols, g.ways ≤ cols →
        st.res.misses - st.res.evictions = occCount st.cache (2 ^ g.set_size) cols) ∧
      st.res.evictions ≤ st.res.misses ∧
      st.res.misses - st.res.evictions ≤ 2 ^ g.set_size * g.ways ∧
      st.res.hits + st.res.misses = (tr.take n).length := by
  obtain ⟨st, hrun, hI, ha, hb⟩ := process_counts hv (tr.take n) (init g) (inv_init g)
  have h0 := occCount_init g (2 ^ g.set_size) g.ways
  have hle := occCount_le st.cache (2 ^ g.set_size) g.ways
  have hi1 : (init g).res.hits = 0 := rfl
  have hi2 : (init g).res.misses = 0 := rfl
  have hi3 : (init g).res.evictions = 0 := rfl
  rw [h0, hi2, hi3] at hb
  rw [hi1, hi2] at ha
  refine ⟨st, hrun, fun cols hc => ?_, by omega, by omega, by omega⟩
  rw [occCount_cols st.cache _ g.ways cols hc]
  · omega
  · intro i j hj
    obtain ⟨k, hk, ho, _⟩ := hI.fill i
    by_contra hne
    have := (ho j).mp hne
    omega

/-- C18. Re-access always hits: in every reachable state of a valid geometry,
after any access to an address (whichever path it takes) an immediately
following Load of the same address takes the hit path, increases hits by
one, and leaves misses, evictions, dirty_bytes, dirty_evictions and the tag
and dirty flag of every slot unchanged. -/
theorem reaccess_hits (g : Geometry) (hv : Valid g) (st : Sim) (hr : Reachable g st)
    (opt : Char) (addr : Nat) :
    ∃ st2 st3 w, operation g st opt addr = Except.ok st2 ∧
      path g st2 addr = Scan.hit w ∧
      operation g st2 'L' addr = Except.ok st3 ∧
      st3.res.hits = st2.res.hits + 1 ∧
      st3.res.misses = st2.res.misses ∧
      st3.res.evictions = st2.res.evictions ∧
      st3.res.dirty_bytes = st2.res.dirty_bytes ∧
      st3.res.dirty_evictions = st2.res.dirty_evictions ∧
      ∀ i j, (st3.cache i j).tag = (st2.cache i j).tag ∧
        (st3.cache i j).dirty = (st2.cache i j).dirty := by
  have hI := reachable_inv hv hr
  obtain ⟨st2, hop, hI2⟩ := step_inv hv hI opt addr
  obtain ⟨w, hw⟩ := reaccess_path hv hI opt addr hop
  obtain ⟨st3, hop3, hc, h1, h2, h3, h4, h5⟩ := load_hit_effect hv hI2 addr w hw
  refine ⟨st2, st3, w, hop, hw, hop3, h1, h2, h3, h4, h5, fun i j => ?_⟩
  rw [hc]
  exact ⟨rfl, rfl⟩

theorem spec_search {g : Geometry} {st : Sim} (hI : SimInv g st) (addr : Nat) :
    (∀ w, path g st addr = Scan.miss w →
      lookup (st.cache (setIndex g addr)) g.ways (curTag g addr) = none ∧
      first_empty_way (st.cache (setIndex g addr)) g.ways = some w) ∧
    (∀ w, path g st addr = Scan.hit w →
      lookup (st.cache (setIndex g addr)) g.ways (curTag g addr) = some w) ∧
    (path g st addr = Scan.full →
      lookup (st.cache (setIndex g addr)) g.ways (curTag g addr) = none ∧
      first_empty_way (st.cache (setIndex g addr)) g.ways = none) := by
  have h := path_eq_specPath hI addr
  unfold specPath at h
  cases hl : lookup (st.cache (setIndex g addr)) g.ways (curTag g addr) with
  | some w0 =>
    rw [hl] at h
    simp only at h
    rw [h]
    refine ⟨fun w a => (by cases a), fun w a => ?_, fun a => (by cases a)⟩
    injection a with a
    rw [a]
  | none =>
    rw [hl] at h
    simp only at h
    cases hf : first_empty_way (st.cache (setIndex g addr)) g.ways with
    | some w0 =>
      rw [hf] at h
      simp only at h
      rw [h]
      refine ⟨fun w a => ⟨rfl, ?_⟩, fun w a => (by cases a), fun a => (by cases a)⟩
      injection a with a
      rw [a]
    | none =>
      rw [hf] at h
      simp only at h
      rw [h]
      exact ⟨fun w a => (by cases a), fun w a => (by cases a), fun _ => ⟨rfl, rfl⟩⟩

theorem waysOf_popLast (top : LRU) (t : List LRU) :
    waysOf (top :: t) = waysOf (popLast top t).2 ++ [(popLast top t).1.y] := by
  have h := congrArg waysOf (popLast_append top t)
  rw [← h]
  simp [waysOf]

theorem rotate_is_move_to_front (top : LRU) (t : List LRU) (w k : Nat)
    (hp : (waysOf (top :: t)).Perm (List.range k)) (hk : k ≤ 2) (hw : w < k)
    (hne : top.y ≠ w) :
    waysOf ((popLast top t).1 :: (popLast top t).2) = w :: (waysOf (top :: t)).erase w := by
  have hlen := hp.length_eq
  have hmem : w ∈ waysOf (top :: t) := hp.mem_iff.mpr (List.mem_range.mpr hw)
  cases t with
  | nil =>
    simp [waysOf] at hmem
    exact absurd hmem.symm hne
  | cons b t2 =>
    cases t2 with
    | nil =>
      simp [waysOf] at hmem
      rcases hmem with h | h
      · exact absurd h.symm hne
      · subst h
        simp [waysOf, popLast, List.erase_cons, hne]
    | cons c t3 =>
      simp [waysOf] at hlen
      omega

theorem missBody_eq (g : Geometry) (st : Sim) (opt : Char) (set tag ind : Nat) :
    missBody g st opt set tag ind =
      { cache := setBlock st.cache set ind
          { dirty := if opt = 'S' then 1 else (st.cache set ind).dirty, tag := tag }
        queues := push st.queues set { x := set, y := ind }
        res :=
          { hits := st.res.hits
            misses := st.res.misses + 1
            evictions := st.res.evictions
            dirty_bytes :=
              if opt = 'S' then st.res.dirty_bytes + offset_byte g else st.res.dirty_bytes
            dirty_evictions := st.res.dirty_evictions } } := by
  unfold missBody
  by_cases hS : opt = 'S'
  · simp only [if_pos hS]
  · simp only [if_neg hS]


theorem ref_step {g : Geometry} (hv : Valid g) (hE : g.ways ≤ 2) {st : Sim} {ref : RefSim}
    (hI : SimInv g st) (hA : Agree st ref) (l : FileLine)
    (hl : l.opt = 'S' ∨ l.opt = 'L') (dec : Nat → Nat × Nat) (bs : Nat)
    (hdec : dec l.addr = codeDecode g l.addr) (hbs : bs = offset_byte g) :
    ∃ st2, operation g st l.opt l.addr = Except.ok st2 ∧ SimInv g st2 ∧
      ∃ ref2, refAccess g.ways dec bs ref l = some ref2 ∧ Agree st2 ref2 := by
  obtain ⟨hs, hr, hst⟩ := hA
  have hd1 : (dec l.addr).1 = setIndex g l.addr := by rw [hdec]; rfl
  have hd2 : (dec l.addr).2 = curTag g l.addr := by rw [hdec]; rfl
  have hSL : ('S' : Char) ≠ 'L' := by decide
  have hLS : ('L' : Char) ≠ 'S' := by decide
  obtain ⟨sm, sh, sf⟩ := spec_search hI l.addr
  obtain ⟨k, hk, ho, hperm⟩ := hI.fill (setIndex g l.addr)
  cases hp : path g st l.addr with
  | miss w =>
    obtain ⟨hop, hI2⟩ := miss_step hv hI l.opt l.addr w hp
    obtain ⟨hl1, hl2⟩ := sm w hp
    unfold path at hp
    obtain ⟨_, hw, he, hb⟩ := scan_miss hp
    have hkw : k = w := fill_level ho he (fun j hj => (hb j (Nat.zero_le _) hj).1)
    have hnot : w ∉ waysOf (st.queues (setIndex g l.addr)) := by
      intro hm
      have := List.mem_range.mp (hperm.mem_iff.mp hm)
      omega
    have hclean := unoccupied_clean hI _ _ he
    refine ⟨_, hop, hI2, ?_⟩
    unfold refAccess
    rw [hd1, hd2, hs, hr, hst, hl1]
    simp only [hl2, insert_most_recent, if_neg hnot]
    refine ⟨_, rfl, ?_⟩
    rw [missBody_eq]
    refine ⟨?_, ?_, ?_⟩
    · simp only
      by_cases hS : l.opt = 'S'
      · simp only [if_pos hS]
      · simp only [if_neg hS, hclean]
    · intro i
      simp only [setSeq, push, setQueue]
      by_cases hi : i = setIndex g l.addr
      · simp [hi, waysOf]
      · simp [hi, hr i]
    · simp only [hbs]
  | hit w =>
    obtain ⟨top, t, st2, hq, hop, hc, hqs, hres, hI2⟩ := hit_step hv hI l.opt l.addr w hp
    have hl1 := sh w hp
    unfold path at hp
    obtain ⟨_, hw, hocc, _, _⟩ := scan_hit hp
    have hwk : w < k := (ho w).mp hocc
    refine ⟨st2, hop, hI2, ?_⟩
    unfold refAccess
    rw [hd1, hd2, hs, hr, hst, hl1]
    simp only
    refine ⟨_, rfl, ?_⟩
    refine ⟨?_, ?_, ?_⟩
    · simp only
      rw [hc]
      by_cases h1 : (st.cache (setIndex g l.addr) w).dirty = 0
      · by_cases h2 : l.opt = 'S'
        · simp [h1, h2]
        · simp [h1, h2]
      · simp [h1]
    · intro i
      simp only [setSeq]
      rw [hqs]
      by_cases hi : i = setIndex g l.addr
      · rw [if_pos hi, hi, hq]
        by_cases hy : top.y = w
        · have hn : ¬ top.y ≠ w := fun a => a hy
          rw [if_neg hn, hq]
          simp [mark_most_recent, waysOf, hy]
        · rw [if_pos hy]
          simp only [setQueue, if_true]
          rw [hq] at hperm
          rw [rotate_is_move_to_front top t w k hperm (by omega) hwk hy]
          have hh : ¬ (waysOf (top :: t)).head? = some w := by
            simp [waysOf, hy]
          simp only [mark_most_recent, if_neg hh]
      · rw [if_neg hi, hr i]
        by_cases hy : top.y ≠ w
        · rw [if_pos hy, setQueue_other _ _ _ _ hi]
        · rw [if_neg hy]
    · simp only
      rw [hres, hbs]
      by_cases h1 : (st.cache (setIndex g l.addr) w).dirty = 0
      · by_cases h2 : l.opt = 'S'
        · simp [h1, h2]
        · simp [h1, h2]
      · simp [h1]
  | full =>
    obtain ⟨top, t, st2, hq, hlen, hx, hy, hop, hc, hqs, hres, hsub, hI2⟩ :=
      evict_step hv hI l.opt l.addr hp
    obtain ⟨hl1, hl2⟩ := sf hp
    have hways := waysOf_popLast top t
    have hnd : (waysOf (top :: t)).Nodup := by
      rw [hq] at hperm
      exact hperm.nodup_iff.mpr (List.nodup_range k)
    have hnot : (popLast top t).1.y ∉ waysOf (popLast top t).2 := by
      rw [hways] at hnd
      intro hm
      have := List.nodup_append.mp hnd
      exact this.2.2 hm (List.mem_singleton_self _)
    have hlen2 : ¬ (waysOf (top :: t)).length < g.ways := by
      simp only [waysOf, List.length_map]
      omega
    have hev : evict_least_recent g.ways (waysOf (top :: t)) =
        some ((popLast top t).1.y, waysOf (popLast top t).2) := by
      unfold evict_least_recent
      rw [if_neg hlen2, hways]
      simp
    refine ⟨st2, hop, hI2, ?_⟩
    unfold refAccess
    rw [hd1, hd2, hs, hr, hst, hl1]
    simp only [hl2, hq, hev, insert_most_recent, if_neg hnot]
    refine ⟨_, rfl, ?_⟩
    refine ⟨?_, ?_, ?_⟩
    · simp only
      rw [hc]
      rcases hI.dirty01 (setIndex g l.addr) (popLast top t).1.y with hd | ⟨hd, _⟩
      · rcases hl with h | h
        · simp [hd, h]
        · simp [hd, h]
      · rcases hl with h | h
        · simp [hd, h]
        · simp [hd, h]
    · intro i
      simp only [setSeq]
      rw [hqs]
      by_cases hi : i = setIndex g l.addr
      · rw [if_pos hi, hi]
        simp [setQueue, waysOf]
      · rw [if_neg hi, hr i, setQueue_other _ _ _ _ hi]
    · simp only
      rw [hres, hbs]
      rcases hI.dirty01 (setIndex g l.addr) (popLast top t).1.y with hd | ⟨hd, _⟩
      · rcases hl with h | h
        · simp [hd, h]
        · simp [hd, h]
      · have hle := hsub hd
        rcases hl with h | h
        · simp [hd, h]
        · simp [hd, h, dec_dirty_bytes, hle]


theorem agree_init (g : Geometry) : Agree (init g) refInit :=
  ⟨rfl, fun _ => rfl, rfl⟩

theorem ref_process {g : Geometry} (hv : Valid g) (hE : g.ways ≤ 2)
    (dec : Nat → Nat × Nat) (bs : Nat) (hbs : bs = offset_byte g) (tr : List FileLine) :
    ∀ st ref, SimInv g st → Agree st ref → LoadStore tr →
      (∀ l ∈ tr, dec l.addr = codeDecode g l.addr) →
      ∃ st2 ref2, process_trace_file g st tr = Except.ok st2 ∧
        refProcess g.ways dec bs ref tr = some ref2 ∧ Agree st2 ref2 := by
  induction tr with
  | nil => exact fun st ref _ hA _ _ => ⟨st, ref, rfl, rfl, hA⟩
  | cons l ls ih =>
    intro st ref hI hA hls hd
    obtain ⟨st1, hop, hI1, ref1, hrf, hA1⟩ := ref_step hv hE hI hA l
      (hls l (List.mem_cons_self _ _)) dec bs (hd l (List.mem_cons_self _ _)) hbs
    obtain ⟨st2, ref2, h1, h2, hA2⟩ := ih st1 ref1 hI1 hA1
      (fun x hx => hls x (List.mem_cons_of_mem _ hx))
      (fun x hx => hd x (List.mem_cons_of_mem _ hx))
    refine ⟨st2, ref2, ?_, ?_, hA2⟩
    · rw [process_cons, hop]
      exact h1
    · show (match refAccess g.ways dec bs ref l with
        | none => none
        | some r => refProcess g.ways dec bs r ls) = _
      rw [hrf]
      exact h2

theorem specDecode_eq (g : Geometry) (h : g.set_size + g.offset_size < 64) (addr : Nat)
    (ha : addr < 2 ^ 63) : specDecode g addr = codeDecode g addr := by
  unfold specDecode codeDecode
  rw [setIndex_eq g h, curTag_eq g h addr ha]

/-- With at most two ways, the simulator and the reference model with
move-to-front on hits, given the decoder and the block amount of the code,
agree after every trace of Loads and Stores: same slots, same recency order,
same statistics. -/
theorem lru_refinement_shared (g : Geometry) (hv : Valid g) (hE : g.ways ≤ 2)
    (tr : List FileLine) (hls : LoadStore tr) :
    ∃ st ref, run g tr = Except.ok st ∧
      refProcess g.ways (codeDecode g) (offset_byte g) refInit tr = some ref ∧
      Agree st ref :=
  ref_process hv hE (codeDecode g) (offset_byte g) rfl tr (init g) refInit (inv_init g)
    (agree_init g) hls (fun _ _ => rfl)

/-- With at most two ways, `b <= 30` and all addresses below `2^63`, the
simulator agrees with the reference model of the spec (decoder of 4.1, block
size `2^b`) after every trace of Loads and Stores. -/
theorem lru_refinement_spec (g : Geometry) (hv : Valid g) (hE : g.ways ≤ 2)
    (hb : g.offset_size ≤ 30) (tr : List FileLine) (hls : LoadStore tr)
    (ha : ∀ l ∈ tr, l.addr < 2 ^ 63) :
    ∃ st ref, run g tr = Except.ok st ∧ refRun g tr = some ref ∧ ref.stats = st.res ∧
      ∀ i j, (ref.slots i j).tag = (st.cache i j).tag ∧
        (ref.slots i j).dirty = (st.cache i j).dirty := by
  obtain ⟨st, ref, h1, h2, hA⟩ := ref_process hv hE (specDecode g) (block_size g)
    (by unfold block_size; exact (offset_byte_eq g hb).symm) tr (init g) refInit (inv_init g)
    (agree_init g) hls (fun l hl => specDecode_eq g hv.2 l.addr (ha l hl))
  refine ⟨st, ref, h1, h2, hA.2.2, fun i j => ?_⟩
  rw [hA.1]
  exact ⟨rfl, rfl⟩

/-- C16 (code evaluated at the failing inputs). With `s = 0, b = 0, E = 1` and
the trace Load(0), Load(2^63), whose addresses `parse_line` accepts, the
simulator counts one miss and one hit while the reference model of the spec
counts two misses and one eviction.  With `b = 31` a single Store(0) leaves
dirty_bytes at `2^64 - 2^31` in the simulator and at `2^31` in the reference
model. -/
theorem reference_model_differs :
    Valid geom1 ∧ geom1.ways ≤ 2 ∧
      addr_accepted 0 = true ∧ addr_accepted (2 ^ 63) = true ∧
      (stateAfter geom1 [L 0, L (2 ^ 63)]).res =
        { hits := 1, misses := 1, evictions := 0, dirty_bytes := 0, dirty_evictions := 0 } ∧
      refStats geom1 [L 0, L (2 ^ 63)] =
        { hits := 0, misses := 2, evictions := 1, dirty_bytes := 0, dirty_evictions := 0 } ∧
      Valid geomB31 ∧ geomB31.ways ≤ 2 ∧
      (stateAfter geomB31 [S 0]).res =
        { hits := 0, misses := 1, evictions := 0, dirty_bytes := 2 ^ 64 - 2 ^ 31,
          dirty_evictions := 0 } ∧
      refStats geomB31 [S 0] =
        { hits := 0, misses := 1, evictions := 0, dirty_bytes := 2 ^ 31,
          dirty_evictions := 0 } := by
  decide

theorem widened_int_ne_pow (v : Int) (h1 : -2 ^ 31 ≤ v) (h2 : v < 2 ^ 31) (b : Nat)
    (hb1 : 31 ≤ b) (hb2 : b < 64) : (v % 2 ^ 64).toNat ≠ 2 ^ b := by
  have hlo : (2 : Nat) ^ 31 ≤ 2 ^ b := Nat.pow_le_pow_right (by decide) hb1
  have hhi : (2 : Nat) ^ b ≤ 2 ^ 63 := Nat.pow_le_pow_right (by decide) (by omega)
  generalize (2 : Nat) ^ b = p at hlo hhi
  omega


/-! ## The later claims at concrete inputs -/

/-- C14 at `s = 0, b = 0, E = 2`: after Load(0), an access to address 1 takes the
clean-miss path at way 1, in the code and in the two-phase search. -/
theorem path_selection_witness :
    Valid geom2 ∧ Reachable geom2 (stateAfter geom2 [L 0]) ∧
      path geom2 (stateAfter geom2 [L 0]) 1 = Scan.miss 1 ∧
      path geom2 (stateAfter geom2 [L 0]) 1 = specPath geom2 (stateAfter geom2 [L 0]) 1 :=
  ⟨by decide, ⟨[L 0], rfl⟩, by decide,
    (path_selection geom2 (by decide) (stateAfter geom2 [L 0]) ⟨[L 0], rfl⟩ 1).1⟩

/-- C15 at `s = 0, b = 0, E = 2` after Load(0), Load(1), Load(2). -/
theorem no_duplicate_tags_witness :
    Valid geom2 ∧
      ∃ st, run geom2 ([L 0, L 1, L 2].take 3) = Except.ok st ∧
        ∀ i j1 j2, (st.cache i j1).tag ≠ UINT64_MAX → (st.cache i j2).tag ≠ UINT64_MAX →
          (st.cache i j1).tag = (st.cache i j2).tag → j1 = j2 :=
  ⟨by decide, no_duplicate_tags geom2 (by decide) [L 0, L 1, L 2] 3⟩

/-- C17 at `s = 0, b = 0, E = 2` and address 1: the tag is below `2^63`, and way 0,
filled by Load(0), is still occupied after Load(1), Load(2). -/
theorem sentinel_never_a_tag_witness :
    geom2.set_size + geom2.offset_size < 64 ∧
      curTag geom2 1 < 2 ^ (63 - geom2.set_size - geom2.offset_size) ∧
      curTag geom2 1 ≠ UINT64_MAX ∧
      ((stateAfter geom2 [L 0]).cache 0 0).tag ≠ UINT64_MAX ∧
      ((stateAfter geom2 ([L 0] ++ [L 1, L 2])).cache 0 0).tag ≠ UINT64_MAX :=
  ⟨by decide, (sentinel_never_a_tag geom2 (by decide) 1).1,
    (sentinel_never_a_tag geom2 (by decide) 1).2.1, by decide,
    (sentinel_never_a_tag geom2 (by decide) 1).2.2 [L 0] [L 1, L 2]
      (stateAfter geom2 [L 0]) (stateAfter geom2 ([L 0] ++ [L 1, L 2])) rfl rfl 0 0
      (by decide)⟩

/-- C18 at `s = 0, b = 0, E = 1`: after Store(0), a Load of address 1 evicts, and
the Load of address 1 that follows hits and changes no other counter. -/
theorem reaccess_hits_witness :
    Valid geom1 ∧ Reachable geom1 (stateAfter geom1 [S 0]) ∧
      ∃ st2 st3, operation geom1 (stateAfter geom1 [S 0]) 'L' 1 = Except.ok st2 ∧
        operation geom1 st2 'L' 1 = Except.ok st3 ∧
        st3.res.hits = st2.res.hits + 1 ∧ st3.res.misses = st2.res.misses ∧
        st3.res.evictions = st2.res.evictions ∧
        st3.res.dirty_bytes = st2.res.dirty_bytes ∧
        st3.res.dirty_evictions = st2.res.dirty_evictions := by
  refine ⟨by decide, ⟨[S 0], rfl⟩, ?_⟩
  obtain ⟨st2, st3, _, a, _, b, c, d, e, f, g1, _⟩ :=
    reaccess_hits geom1 (by decide) (stateAfter geom1 [S 0]) ⟨[S 0], rfl⟩ 'L' 1
  exact ⟨st2, st3, a, b, c, d, e, f, g1⟩

/-- C19 at `s = 2, b = 2, E = 2`: after Load(0), which fills set 0, a Store to
address 4 (set 1) leaves set 0 as it was. -/
theorem set_isolation_witness :
    Valid geom4 ∧ Reachable geom4 (stateAfter geom4 [L 0]) ∧ setIndex geom4 4 = 1 ∧
      ∃ st2, operation geom4 (stateAfter geom4 [L 0]) 'S' 4 = Except.ok st2 ∧
        (∀ j, (st2.cache 0 j).tag = ((stateAfter geom4 [L 0]).cache 0 j).tag ∧
          (st2.cache 0 j).dirty = ((stateAfter geom4 [L 0]).cache 0 j).dirty) ∧
        st2.queues 0 = (stateAfter geom4 [L 0]).queues 0 := by
  refine ⟨by decide, ⟨[L 0], rfl⟩, by decide, ?_⟩
  obtain ⟨st2, h1, h2⟩ :=
    set_isolation geom4 (by decide) (stateAfter geom4 [L 0]) ⟨[L 0], rfl⟩ 'S' 4
  exact ⟨st2, h1, h2 0 (by decide)⟩

/-- C20 at `s = 0, b = 0, E = 2` after Load(0), Load(1), Load(2), Load(0): the
counters are hits=0, misses=4, evictions=2 and two slots are occupied. -/
theorem counters_match_occupancy_witness :
    Valid geom2 ∧
      (stateAfter geom2 [L 0, L 1, L 2, L 0]).res =
        { hits := 0, misses := 4, evictions := 2, dirty_bytes := 0, dirty_evictions := 0 } ∧
      ∃ st, run geom2 ([L 0, L 1, L 2, L 0].take 4) = Except.ok st ∧
        (∀ cols, geom2.ways ≤ cols →
          st.res.misses - st.res.evictions = occCount st.cache (2 ^ geom2.set_size) cols) ∧
        st.res.evictions ≤ st.res.misses ∧
        st.res.misses - st.res.evictions ≤ 2 ^ geom2.set_size * geom2.ways ∧
        st.res.hits + st.res.misses = ([L 0, L 1, L 2, L 0].take 4).length :=
  ⟨by decide, by decide, counters_match_occupancy geom2 (by decide) [L 0, L 1, L 2, L 0] 4⟩


/-! ## Checked slot accesses -/

theorem slotFault_none {m : CacheMemory} {i j : Nat} (h1 : m.rowOk i = true)
    (h2 : j < m.lines) : slotFault m i j = none := by
  unfold slotFault
  rw [h1]
  simp only [Bool.true_eq_false, if_false]
  rw [if_neg (by omega)]

theorem slotFault_some {m : CacheMemory} {i j : Nat} {f : Fault}
    (h : slotFault m i j = some f) : f = Fault.nullRow ∨ f = Fault.outOfRow := by
  unfold slotFault at h
  by_cases h1 : m.rowOk i = false
  · rw [if_pos h1] at h
    injection h with h
    exact Or.inl h.symm
  · rw [if_neg h1] at h
    by_cases h2 : m.lines ≤ j
    · rw [if_pos h2] at h
      injection h with h
      exact Or.inr h.symm
    · rw [if_neg h2] at h
      cases h

theorem scanChecked_cases (m : CacheMemory) (set : Nat) (row : Nat → Block) (tag : Nat)
    (n ind : Nat) :
    (∃ f, scanLoopChecked m set row tag n ind = Except.error f ∧
        (f = Fault.nullRow ∨ f = Fault.outOfRow)) ∨
      scanLoopChecked m set row tag n ind = Except.ok (scanLoop row tag n ind) := by
  induction n generalizing ind with
  | zero => exact Or.inr rfl
  | succ n ih =>
    unfold scanLoopChecked scanLoop
    cases hs : slotFault m set ind with
    | some f => exact Or.inl ⟨f, rfl, slotFault_some hs⟩
    | none =>
      simp only
      by_cases h1 : (row ind).tag = UINT64_MAX
      · rw [if_pos h1, if_pos h1]
        exact Or.inr rfl
      · rw [if_neg h1, if_neg h1]
        by_cases h2 : (row ind).tag = tag
        · rw [if_pos h2, if_pos h2]
          exact Or.inr rfl
        · rw [if_neg h2, if_neg h2]
          exact ih (ind + 1)

theorem scanChecked_cover {m : CacheMemory} {set : Nat} (row : Nat → Block) (tag : Nat)
    (hrow : m.rowOk set = true) (n ind : Nat) (hn : ind + n ≤ m.lines) :
    scanLoopChecked m set row tag n ind = Except.ok (scanLoop row tag n ind) := by
  induction n generalizing ind with
  | zero => rfl
  | succ n ih =>
    unfold scanLoopChecked scanLoop
    rw [slotFault_none hrow (by omega)]
    simp only
    by_cases h1 : (row ind).tag = UINT64_MAX
    · rw [if_pos h1, if_pos h1]
    · rw [if_neg h1, if_neg h1]
      by_cases h2 : (row ind).tag = tag
      · rw [if_pos h2, if_pos h2]
      · rw [if_neg h2, if_neg h2]
        exact ih (ind + 1) (by omega)

theorem pop_cons {q : Nat → List LRU} {set : Nat} {top : LRU} {t : List LRU}
    (hq : q set = top :: t) :
    pop q set = Except.ok ((popLast top t).1, setQueue q set (popLast top t).2) := by
  unfold pop
  rw [hq]

theorem operationChecked_cases {g : Geometry} (hv : Valid g) (m : CacheMemory) {st : Sim}
    (hI : SimInv g st) (opt : Char) (addr : Nat) :
    (∃ f, operationChecked g m st opt addr = Except.error f ∧
        (f = Fault.nullRow ∨ f = Fault.outOfRow)) ∨
      (∃ st2, operationChecked g m st opt addr = Except.ok st2 ∧
        operation g st opt addr = Except.ok st2) := by
  obtain ⟨st2, hop, _⟩ := step_inv hv hI opt addr
  unfold operationChecked
  rcases scanChecked_cases m (setIndex g addr) (st.cache (setIndex g addr)) (curTag g addr)
    g.ways 0 with ⟨f, hf, hff⟩ | hs
  · rw [hf]
    exact Or.inl ⟨f, rfl, hff⟩
  · rw [hs]
    have hop2 := hop
    unfold operation at hop2
    cases hp : scanLoop (st.cache (setIndex g addr)) (curTag g addr) g.ways 0 with
    | miss w =>
      rw [hp] at hop2
      exact Or.inr ⟨st2, hop2, hop⟩
    | hit w =>
      rw [hp] at hop2
      exact Or.inr ⟨st2, hop2, hop⟩
    | full =>
      rw [hp] at hop2
      simp only at hop2 ⊢
      obtain ⟨top, t, _, hq, _⟩ := evict_step hv hI opt addr hp
      rw [pop_cons hq]
      simp only
      cases hs2 : slotFault m (popLast top t).1.x (popLast top t).1.y with
      | some f => exact Or.inl ⟨f, rfl, slotFault_some hs2⟩
      | none => exact Or.inr ⟨st2, hop2, hop⟩

theorem operationChecked_cover {g : Geometry} (hv : Valid g) (m : CacheMemory) {st : Sim}
    (hI : SimInv g st) (opt : Char) (addr : Nat)
    (hrow : m.rowOk (setIndex g addr) = true) (hl : g.ways ≤ m.lines) :
    operationChecked g m st opt addr = operation g st opt addr := by
  unfold operationChecked operation
  rw [scanChecked_cover _ _ hrow g.ways 0 (by omega)]
  cases hp : scanLoop (st.cache (setIndex g addr)) (curTag g addr) g.ways 0 with
  | miss w => rfl
  | hit w => rfl
  | full =>
    simp only
    obtain ⟨top, t, _, hq, _, hx, hy, _⟩ := evict_step hv hI opt addr hp
    rw [pop_cons hq]
    simp only
    rw [hx, slotFault_none hrow (by omega)]

theorem processChecked_cons (g : Geometry) (m : CacheMemory) (st : Sim) (l : FileLine)
    (ls : List FileLine) :
    processChecked g m st (l :: ls) =
      (match operationChecked g m st l.opt l.addr with
       | Except.error e => Except.error e
       | Except.ok st2 => processChecked g m st2 ls) := rfl

theorem processChecked_cases {g : Geometry} (hv : Valid g) (m : CacheMemory)
    (tr : List FileLine) :
    ∀ st, SimInv g st →
      (∃ f, processChecked g m st tr = Except.error f ∧
          (f = Fault.nullRow ∨ f = Fault.outOfRow)) ∨
        (∃ st2, processChecked g m st tr = Except.ok st2 ∧
          process_trace_file g st tr = Except.ok st2) := by
  induction tr with
  | nil => exact fun st _ => Or.inr ⟨st, rfl, rfl⟩
  | cons l ls ih =>
    intro st hI
    rw [processChecked_cons, process_cons]
    rcases operationChecked_cases hv m hI l.opt l.addr with ⟨f, hf, hff⟩ | ⟨st1, h1, h2⟩
    · rw [hf]
      exact Or.inl ⟨f, rfl, hff⟩
    · rw [h1, h2]
      obtain ⟨st1b, hop, hI1⟩ := step_inv hv hI l.opt l.addr
      rw [h2] at hop
      injection hop with hop
      rw [← hop] at hI1
      exact ih st1 hI1

theorem processChecked_cover {g : Geometry} (hv : Valid g) (m : CacheMemory)
    (hrows : ∀ i, i < 2 ^ g.set_size → m.rowOk i = true) (hl : g.ways ≤ m.lines)
    (tr : List FileLine) :
    ∀ st, SimInv g st → processChecked g m st tr = process_trace_file g st tr := by
  induction tr with
  | nil => exact fun st _ => rfl
  | cons l ls ih =>
    intro st hI
    rw [processChecked_cons, process_cons,
      operationChecked_cover hv m hI l.opt l.addr (hrows _ (setIndex_lt g hv.2 l.addr)) hl]
    obtain ⟨st1, hop, hI1⟩ := step_inv hv hI l.opt l.addr
    rw [hop]
    exact ih st1 hI1

theorem ways_le_lines (g : Geometry) (h : g.ways < 64) : g.ways ≤ lines g := by
  unfold lines
  rw [shl64_one h]
  exact Nat.le_of_lt (Nat.lt_two_pow g.ways)

theorem cacheMemory_rowOk (g : Geometry) (hv : Valid g) (mallocOk : Nat → Bool)
    (h : ∀ i, i < 2 ^ g.set_size → mallocOk i = true) :
    ∀ i, i < 2 ^ g.set_size → (cacheMemory g mallocOk).rowOk i = true := by
  intro i hi
  have hs : sets g = 2 ^ g.set_size := by
    unfold sets
    exact shl64_one (by have := hv.2; omega)
  simp [cacheMemory, allocateCache, hs, hi, h i hi]


/-- A checked run that succeeds ends in the state of `run`: what is proved of
the states of `run` holds of the states the checked run reaches. -/
theorem runChecked_ok {g : Geometry} (hv : Valid g) (mallocOk : Nat → Bool)
    {tr : List FileLine} {st : Sim} (h : runChecked g mallocOk tr = Except.ok st) :
    run g tr = Except.ok st := by
  unfold runChecked at h
  rcases processChecked_cases hv (cacheMemory g mallocOk) tr (init g) (inv_init g) with
    ⟨f, hf, _⟩ | ⟨st2, h1, h2⟩
  · rw [hf] at h
    cases h
  · rw [h1] at h
    injection h with h
    rw [← h]
    exact h2

/-- With `E < 64` and the rows below `2^s` allocated, no slot access leaves its
row and the checked run is the run. -/
theorem runChecked_eq_run {g : Geometry} (hv : Valid g) (hE : g.ways < 64)
    (mallocOk : Nat → Bool) (hm : ∀ i, i < 2 ^ g.set_size → mallocOk i = true)
    (tr : List FileLine) : runChecked g mallocOk tr = run g tr := by
  unfold runChecked run
  exact processChecked_cover hv _ (cacheMemory_rowOk g hv mallocOk hm) (ways_le_lines g hE) tr
    (init g) (inv_init g)

/-- The checked run does stop at slot accesses outside the memory of the cache:
with `E = 64` the shift `1ul << 64` leaves no block in a row (`lines = 0` in
this model) and the first read of way 0 is outside the row; with a row whose
malloc failed the first access uses a NULL row pointer; with `E = 2` and all
rows allocated the run goes through. -/
theorem checked_run_examples :
    Valid geomE64 ∧ lines geomE64 = 0 ∧
      runChecked geomE64 (fun _ => true) [L 0] = Except.error Fault.outOfRow ∧
      runChecked geom1 (fun _ => false) [L 0] = Except.error Fault.nullRow ∧
      lines geom2 = 4 ∧
      runChecked geom2 (fun _ => true) [L 0, L 1, L 2] =
        Except.ok (stateAfter geom2 [L 0, L 1, L 2]) :=
  ⟨by decide, by decide, rfl, rfl, by decide, rfl⟩

/-! ## The block amount in the three paths -/

theorem offset_byte_block_size (g : Geometry) (hb : g.offset_size ≤ 30) :
    offset_byte g = block_size g := by
  unfold block_size
  exact offset_byte_eq g hb

/-- For `b <= 30` the eviction-miss path accounts in `block_size = 2^b`:
dirty_evictions grows by `block_size` if the victim was dirty and
dirty_bytes changes by (new flag - old flag) times `block_size`. -/
theorem eviction_dirty_accounting_upto_30 (g : Geometry) (hv : Valid g)
    (hb : g.offset_size ≤ 30) (st : Sim) (hr : Reachable g st) (l : FileLine)
    (hl : l.opt = 'S' ∨ l.opt = 'L') (hp : path g st l.addr = Scan.full) :
    ∃ w st2, victim (st.queues (setIndex g l.addr)) = some w ∧
      w.x = setIndex g l.addr ∧ w.y < g.ways ∧
      operation g st l.opt l.addr = Except.ok st2 ∧
      (st2.cache w.x w.y).dirty = (if l.opt = 'S' then 1 else 0) ∧
      st2.res.dirty_evictions = st.res.dirty_evictions +
        (if (st.cache w.x w.y).dirty ≠ 0 then block_size g else 0) ∧
      (st2.res.dirty_bytes : Int) = (st.res.dirty_bytes : Int) +
        ((st2.cache w.x w.y).dirty - (st.cache w.x w.y).dirty) * (block_size g : Int) ∧
      st2.res.misses = st.res.misses + 1 ∧
      st2.res.evictions = st.res.evictions + 1 ∧
      st2.res.hits = st.res.hits := by
  have h := eviction_dirty_accounting g hv st hr l hl hp
  rw [offset_byte_block_size g hb] at h
  exact h

/-- For `b <= 30` a Store hit on a clean line adds `block_size = 2^b` to
dirty_bytes; the other effects of a hit are as in `hit_effect`. -/
theorem hit_effect_upto_30 (g : Geometry) (hv : Valid g) (hb : g.offset_size ≤ 30)
    (st : Sim) (hr : Reachable g st) (opt : Char) (addr w : Nat)
    (hp : path g st addr = Scan.hit w) :
    ∃ st2, operation g st opt addr = Except.ok st2 ∧
      st2.res.hits = st.res.hits + 1 ∧
      st2.res.misses = st.res.misses ∧
      st2.res.evictions = st.res.evictions ∧
      st2.res.dirty_evictions = st.res.dirty_evictions ∧
      (∀ i j, (st2.cache i j).tag = (st.cache i j).tag) ∧
      (opt = 'S' ∧ (st.cache (setIndex g addr) w).dirty = 0 →
        (st2.cache (setIndex g addr) w).dirty = 1 ∧
        (∀ i j, ¬ (i = setIndex g addr ∧ j = w) → (st2.cache i j).dirty = (st.cache i j).dirty) ∧
        st2.res.dirty_bytes = st.res.dirty_bytes + block_size g) ∧
      (¬ (opt = 'S' ∧ (st.cache (setIndex g addr) w).dirty = 0) →
        (∀ i j, (st2.cache i j).dirty = (st.cache i j).dirty) ∧
        st2.res.dirty_bytes = st.res.dirty_bytes) := by
  have h := hit_effect g hv st hr opt addr w hp
  rw [offset_byte_block_size g hb] at h
  exact h

/-- For `b <= 30` a Store that takes the clean-miss path adds
`block_size = 2^b` to dirty_bytes; the other effects are as in
`clean_miss_effect`. -/
theorem clean_miss_effect_upto_30 (g : Geometry) (hv : Valid g) (hb : g.offset_size ≤ 30)
    (st : Sim) (hr : Reachable g st) (opt : Char) (addr w : Nat)
    (hnr : ∀ j, j < g.ways → (st.cache (setIndex g addr) j).tag ≠ UINT64_MAX →
      (st.cache (setIndex g addr) j).tag ≠ curTag g addr)
    (hw : w < g.ways) (hempty : (st.cache (setIndex g addr) w).tag = UINT64_MAX)
    (hlow : ∀ j, j < w → (st.cache (setIndex g addr) j).tag ≠ UINT64_MAX) :
    ∃ st2, operation g st opt addr = Except.ok st2 ∧
      path g st addr = Scan.miss w ∧
      (st2.cache (setIndex g addr) w).tag = curTag g addr ∧
      (∀ i j, ¬ (i = setIndex g addr ∧ j = w) → st2.cache i j = st.cache i j) ∧
      (st2.cache (setIndex g addr) w).dirty = (if opt = 'S' then 1 else 0) ∧
      st2.queues (setIndex g addr) =
        { x := setIndex g addr, y := w } :: st.queues (setIndex g addr) ∧
      (∀ i, i ≠ setIndex g addr → st2.queues i = st.queues i) ∧
      st2.res.misses = st.res.misses + 1 ∧
      st2.res.dirty_bytes = st.res.dirty_bytes + (if opt = 'S' then block_size g else 0) ∧
      st2.res.hits = st.res.hits ∧
      st2.res.evictions = st.res.evictions ∧
      st2.res.dirty_evictions = st.res.dirty_evictions := by
  have h := clean_miss_effect g hv st hr opt addr w hnr hw hempty hlow
  rw [offset_byte_block_size g hb] at h
  exact h

/-- C5 (code evaluated at the failing inputs). With `s = 0, E = 1, b = 32`
(block_size `2^32`), after Store(0) the access Load(2^32) takes the eviction
path with the dirty victim way 0; dirty_evictions grows from 0 to 1 and
dirty_bytes drops from 1 to 0, not by `2^32`.  With `b = 31` (block_size
`2^31`) the same run, Store(0), Load(2^31), moves both by `2^64 - 2^31`. -/
theorem eviction_amount_beyond_30 :
    Valid geomB32 ∧ block_size geomB32 = 2 ^ 32 ∧
      path geomB32 (stateAfter geomB32 [S 0]) (2 ^ 32) = Scan.full ∧
      victim ((stateAfter geomB32 [S 0]).queues 0) = some { x := 0, y := 0 } ∧
      ((stateAfter geomB32 [S 0]).cache 0 0).dirty = 1 ∧
      (stateAfter geomB32 [S 0]).res =
        { hits := 0, misses := 1, evictions := 0, dirty_bytes := 1, dirty_evictions := 0 } ∧
      (stateAfter geomB32 [S 0, L (2 ^ 32)]).res =
        { hits := 0, misses := 2, evictions := 1, dirty_bytes := 0, dirty_evictions := 1 } ∧
      (stateAfter geomB32 [S 0, L (2 ^ 32)]).res.dirty_evictions ≠
        (stateAfter geomB32 [S 0]).res.dirty_evictions + block_size geomB32 ∧
      Valid geomB31 ∧ block_size geomB31 = 2 ^ 31 ∧
      path geomB31 (stateAfter geomB31 [S 0]) (2 ^ 31) = Scan.full ∧
      (stateAfter geomB31 [S 0, L (2 ^ 31)]).res =
        { hits := 0, misses := 2, evictions := 1, dirty_bytes := 0,
          dirty_evictions := 2 ^ 64 - 2 ^ 31 } ∧
      (stateAfter geomB31 [S 0, L (2 ^ 31)]).res.dirty_evictions ≠
        (stateAfter geomB31 [S 0]).res.dirty_evictions + block_size geomB31 := by
  decide

/-- C8 (code evaluated at the failing inputs). With `s = 0, E = 1, b = 32`
(block_size `2^32`), after Load(0) the access Store(0) hits the clean way 0
and dirty_bytes grows from 0 to 1, not by `2^32`.  With `b = 31` (block_size
`2^31`) it grows to `2^64 - 2^31`. -/
theorem hit_amount_beyond_30 :
    Valid geomB32 ∧ block_size geomB32 = 2 ^ 32 ∧
      path geomB32 (stateAfter geomB32 [L 0]) 0 = Scan.hit 0 ∧
      ((stateAfter geomB32 [L 0]).cache 0 0).dirty = 0 ∧
      (stateAfter geomB32 [L 0]).res =
        { hits := 0, misses := 1, evictions := 0, dirty_bytes := 0, dirty_evictions := 0 } ∧
      (stateAfter geomB32 [L 0, S 0]).res =
        { hits := 1, misses := 1, evictions := 0, dirty_bytes := 1, dirty_evictions := 0 } ∧
      (stateAfter geomB32 [L 0, S 0]).res.dirty_bytes ≠
        (stateAfter geomB32 [L 0]).res.dirty_bytes + block_size geomB32 ∧
      Valid geomB31 ∧ block_size geomB31 = 2 ^ 31 ∧
      path geomB31 (stateAfter geomB31 [L 0]) 0 = Scan.hit 0 ∧
      (stateAfter geomB31 [L 0, S 0]).res =
        { hits := 1, misses := 1, evictions := 0, dirty_bytes := 2 ^ 64 - 2 ^ 31,
          dirty_evictions := 0 } ∧
      (stateAfter geomB31 [L 0, S 0]).res.dirty_bytes ≠
        (stateAfter geomB31 [L 0]).res.dirty_bytes + block_size geomB31 := by
  decide

/-- C9 (code evaluated at the failing inputs). With `s = 0, E = 2, b = 32`
(block_size `2^32`), after Load(0) the access Store(2^32) is not resident and
fills way 1, the lowest empty way; dirty_bytes grows from 0 to 1, not by
`2^32`.  With `b = 31` (block_size `2^31`) the access Store(2^31) takes it to
`2^64 - 2^31`. -/
theorem clean_miss_amount_beyond_30 :
    Valid geomB32E2 ∧ block_size geomB32E2 = 2 ^ 32 ∧
      path geomB32E2 (stateAfter geomB32E2 [L 0]) (2 ^ 32) = Scan.miss 1 ∧
      curTag geomB32E2 (2 ^ 32) = 1 ∧
      (List.range 2).map (fun j => ((stateAfter geomB32E2 [L 0]).cache 0 j).tag) =
        [0, UINT64_MAX] ∧
      (stateAfter geomB32E2 [L 0]).res =
        { hits := 0, misses := 1, evictions := 0, dirty_bytes := 0, dirty_evictions := 0 } ∧
      (stateAfter geomB32E2 [L 0, S (2 ^ 32)]).res =
        { hits := 0, misses := 2, evictions := 0, dirty_bytes := 1, dirty_evictions := 0 } ∧
      (stateAfter geomB32E2 [L 0, S (2 ^ 32)]).res.dirty_bytes ≠
        (stateAfter geomB32E2 [L 0]).res.dirty_bytes + block_size geomB32E2 ∧
      Valid geomB31E2 ∧ block_size geomB31E2 = 2 ^ 31 ∧
      path geomB31E2 (stateAfter geomB31E2 [L 0]) (2 ^ 31) = Scan.miss 1 ∧
      (stateAfter geomB31E2 [L 0, S (2 ^ 31)]).res =
        { hits := 0, misses := 2, evictions := 0, dirty_bytes := 2 ^ 64 - 2 ^ 31,
          dirty_evictions := 0 } ∧
      (stateAfter geomB31E2 [L 0, S (2 ^ 31)]).res.dirty_bytes ≠
        (stateAfter geomB31E2 [L 0]).res.dirty_bytes + block_size geomB31E2 := by
  decide


end Csim
